import Mathlib

/-!
Shallow embedding of the `python-grami` frequent-subgraph miner
(`graph.py`, `pattern.py`, `canonical.py`, `embed.py`, `candidate.py`,
`miner.py`) together with theorems settling the specification claims.

Vertex labels are strings, edge labels are `Option String` (a missing
label is `none`, distinct from `some ""`), node ids are natural numbers.
-/

namespace Grami

/-- `Edge` from `graph.py`: immutable labeled edge record. -/
structure GEdge where
  u : Nat
  v : Nat
  label : Option String
deriving DecidableEq

/-- `DataGraph` input triple: `directed`, vertex labels (indexed by node id),
and the edge list.  Adjacency is derived below exactly as the constructor
in `graph.py` builds it. -/
structure DGraph where
  directed : Bool
  vlabels : List String
  edges : List GEdge
deriving DecidableEq

/-- `Pattern` from `pattern.py`: directed flag, vertex labels, edge list.
The canonical key is computed by `patKey` below (the cached `key` field). -/
structure Pat where
  directed : Bool
  vlabels : List String
  edges : List GEdge
deriving DecidableEq

def DGraph.n (G : DGraph) : Nat := G.vlabels.length

/-- `Pattern.num_nodes`. -/
def Pat.n (p : Pat) : Nat := p.vlabels.length

def vlabG (G : DGraph) (u : Nat) : String := G.vlabels.getD u ""

def vlabP (p : Pat) (u : Nat) : String := p.vlabels.getD u ""

/-- The entries one stored edge contributes to `adj[u]`: `(e.v, e.label)`
when `e.u = u`, and for undirected graphs also `(e.u, e.label)` when
`e.v = u`, in that order. -/
def adjEntriesOf (G : DGraph) (e : GEdge) (u : Nat) :
    List (Nat × Option String) :=
  (if e.u = u then [(e.v, e.label)] else []) ++
    (if G.directed = false ∧ e.v = u then [(e.u, e.label)] else [])

/-- Forward adjacency list `adj[u]` of `graph.py`: for each edge `e`, the
constructor appends `(e.v, e.label)` to `adj[e.u]` and, when the graph is
undirected, also `(e.u, e.label)` to `adj[e.v]`, in that order. -/
def adjL (G : DGraph) (u : Nat) : List (Nat × Option String) :=
  G.edges.flatMap fun e => adjEntriesOf G e u

/-- Reverse adjacency list `rev[v]` of `graph.py`. -/
def revL (G : DGraph) (v : Nat) : List (Nat × Option String) :=
  G.edges.flatMap fun e =>
    (if e.v = v then [(e.u, e.label)] else []) ++
      (if G.directed = false ∧ e.u = v then [(e.v, e.label)] else [])

/-- `DataGraph.has_edge(u, v, label)`: some stored forward edge from `u`
to `v` matches (`label = None` matches any stored label). -/
def hasEdge (G : DGraph) (u v : Nat) (lab : Option String) : Bool :=
  (adjL G u).any fun pr => pr.1 = v ∧ (lab = none ∨ pr.2 = lab)

/-! ### Canonicalizer (`canonical.py`, `_CanonDFSHelper`) -/

/-- Normalized edge key `(u, v, elabel, dflag)` as stored in `edge_keys`
and `used_edges`. -/
abbrev EKey := Nat × Nat × Option String × Nat

/-- A DFS-code tuple `(i, j, vlabel_i, elabel_or_empty, vlabel_j, df)`. -/
abbrev CodeT := Nat × Nat × String × String × String × Nat

instance : DecidableEq (List CodeT) := List.hasDecEq

def insertNew {α : Type} [DecidableEq α] (l : List α) (x : α) : List α :=
  if x ∈ l then l else l ++ [x]

/-- Insert `x` into a list sorted by the strict order `lt`, before the
first element not strictly below `x`. -/
def insSorted {α : Type} (lt : α → α → Bool) (x : α) : List α → List α
  | [] => [x]
  | y :: t => if lt y x then y :: insSorted lt x t else x :: y :: t

/-- Stable sort by the strict order `lt` (insertion sort; processing the
list right to left places each element before later equal-key elements,
matching the stability of Python's `sort`/`sorted`). -/
def stableSort {α : Type} (lt : α → α → Bool) : List α → List α
  | [] => []
  | x :: t => insSorted lt x (stableSort lt t)

/-- Pattern adjacency `p_adj` of `_CanonDFSHelper.__init__`: directed
patterns record each edge with tag 1 (outgoing) at `e.u` and tag 2
(incoming) at `e.v`; undirected patterns record both entries with tag 0. -/
def pAdj (directed : Bool) (edges : List GEdge) (u : Nat) :
    List (Nat × Option String × Nat) :=
  edges.flatMap fun e =>
    if directed then
      (if e.u = u then [(e.v, e.label, 1)] else []) ++
        (if e.v = u then [(e.u, e.label, 2)] else [])
    else
      (if e.u = u then [(e.v, e.label, 0)] else []) ++
        (if e.v = u then [(e.u, e.label, 0)] else [])

/-- `edge_keys` of `_CanonDFSHelper.__init__` (a set; modelled as a
duplicate-free list in insertion order). -/
def edgeKeysOf (directed : Bool) (edges : List GEdge) : List EKey :=
  edges.foldl
    (fun acc e =>
      if directed then insertNew acc (e.u, e.v, e.label, 1)
      else insertNew acc (min e.u e.v, max e.u e.v, e.label, 0))
    []

/-- `norm_key` inside `_dfs_enumerate`: directed keys keep the traversal
orientation with dflag 1; undirected keys order the endpoints. -/
def normKeyD (directed : Bool) (u v : Nat) (el : Option String) : EKey :=
  if directed then (u, v, el, 1) else (min u v, max u v, el, 0)

def elOr (el : Option String) : String := el.getD ""

def idxOfAux : List Nat → Nat → Nat → Option Nat
  | [], _, _ => none
  | x :: t, u, i => if x = u then some i else idxOfAux t u (i + 1)

/-- Position of `u` in the visit-order list (`visited_idx[u]`). -/
def idxOf (vis : List Nat) (u : Nat) : Option Nat := idxOfAux vis u 0

/-- `visited_idx.get(v, 10**9)`. -/
def visIdx (vis : List Nat) (v : Nat) : Nat := (idxOf vis v).getD 1000000000

/-- State of one `_dfs_enumerate` run: visit order, used edge keys,
emitted code. -/
structure DfsSt where
  vis : List Nat
  used : List EKey
  code : List CodeT

/-- `assign`: return index of `u` in visit order, appending it if new. -/
def assignIdx (vis : List Nat) (u : Nat) : List Nat × Nat :=
  match idxOf vis u with
  | some i => (vis, i)
  | none => (vis ++ [u], vis.length)

/-- `push_edge` of `_dfs_enumerate`. -/
def pushEdge (directed : Bool) (vlabels : List String) (st : DfsSt)
    (u v : Nat) (el : Option String) (df : Nat) : DfsSt :=
  let a1 := assignIdx st.vis u
  let a2 := assignIdx a1.1 v
  { vis := a2.1
    used := insertNew st.used (normKeyD directed u v el)
    code := st.code ++
      [(a1.2, a2.2, vlabels.getD u "", elOr el, vlabels.getD v "", df)] }

/-- A frontier entry `(u, v, el, df, uidx, vidx_or_sentinel)`. -/
abbrev FrontE := Nat × Nat × Option String × Nat × Nat × Nat

/-- Sort key of the frontier sort in `_dfs_enumerate`. -/
def frontKey (vlabels : List String) (t : FrontE) :
    Nat × String × String × Nat × String × Nat × Nat :=
  match t with
  | (u, v, el, df, ui, vi) =>
    (ui, vlabels.getD u "", elOr el,
      if vi ≠ 1000000000 then 0 else 1,
      if vi ≠ 1000000000 then vlabels.getD v "" else "~",
      df, vi)

/-- Lexicographic comparison of character lists (the order underlying
both Python's string `<` and Lean's `String.lt`), written structurally
so it evaluates inside the kernel. -/
def strLtL : List Char → List Char → Bool
  | [], [] => false
  | [], _ :: _ => true
  | _ :: _, [] => false
  | c :: cs, d :: ds =>
    if c < d then true else if d < c then false else strLtL cs ds

/-- Python string `<` (lexicographic by code point). -/
def strLtB (a b : String) : Bool := strLtL a.data b.data

/-- Python string `<=` for a total order: `a <= b` iff `not (b < a)`. -/
def strLeB (a b : String) : Bool := !strLtB b a

/-- Strict lexicographic order on frontier sort keys (Python tuple `<`). -/
def frontKeyLt (a b : Nat × String × String × Nat × String × Nat × Nat) :
    Bool :=
  match a, b with
  | (a1, a2, a3, a4, a5, a6, a7), (b1, b2, b3, b4, b5, b6, b7) =>
    if a1 < b1 then true else if b1 < a1 then false else
    if strLtB a2 b2 then true else if strLtB b2 a2 then false else
    if strLtB a3 b3 then true else if strLtB b3 a3 then false else
    if a4 < b4 then true else if b4 < a4 then false else
    if strLtB a5 b5 then true else if strLtB b5 a5 then false else
    if a6 < b6 then true else if b6 < a6 then false else
    decide (a7 < b7)

/-- First minimum of the frontier under the sort key: equals
`frontier.sort(...)` followed by taking `frontier[0]` (Python's sort is
stable, so ties keep construction order). -/
def pickMin (vlabels : List String) (l : List FrontE) : Option FrontE :=
  l.foldl
    (fun acc x =>
      match acc with
      | none => some x
      | some b =>
        if frontKeyLt (frontKey vlabels x) (frontKey vlabels b) then some x
        else some b)
    none

/-- Frontier construction of one loop iteration of `_dfs_enumerate`:
iterate visited nodes in visit order, then their `p_adj` entries, keeping
entries whose normalized key is unused. -/
def mkFrontier (directed : Bool) (edges : List GEdge) (st : DfsSt) :
    List FrontE :=
  st.vis.enum.flatMap fun ui_u =>
    (pAdj directed edges ui_u.2).filterMap fun ved =>
      if normKeyD directed ui_u.2 ved.1 ved.2.1 ∈ st.used then none
      else some (ui_u.2, ved.1, ved.2.1, ved.2.2, ui_u.1, visIdx st.vis ved.1)

/-- The `while True` loop of `_dfs_enumerate`, with fuel (the loop pushes
one fresh edge key per iteration, so any fuel past `2·|edges|+1` is
unreachable; callers pass that bound). -/
def dfsLoop (directed : Bool) (vlabels : List String) (edges : List GEdge)
    (keys : List EKey) : Nat → DfsSt → List CodeT
  | 0, st => st.code
  | fuel + 1, st =>
    if keys.all (· ∈ st.used) then st.code
    else
      match pickMin vlabels (mkFrontier directed edges st) with
      | none => st.code
      | some (u, v, el, df, _, _) =>
        dfsLoop directed vlabels edges keys fuel
          (pushEdge directed vlabels st u v el df)

/-- `_dfs_enumerate(su, sv, elab, dflag)`. -/
def dfsEnumerate (directed : Bool) (vlabels : List String)
    (edges : List GEdge) (keys : List EKey) (su sv : Nat)
    (el : Option String) (df : Nat) : List CodeT :=
  dfsLoop directed vlabels edges keys (2 * edges.length + 1)
    (pushEdge directed vlabels { vis := [], used := [], code := [] } su sv el df)

def optStrLtB (a b : Option String) : Bool :=
  match a, b with
  | none, none => false
  | none, some _ => true
  | some _, none => false
  | some x, some y => strLtB x y

/-- Strict order used by `sorted(self.edge_keys)` (Python tuple order on
`(u, v, elabel, dflag)`; the order of seed enumeration does not affect the
minimum taken over all seeds). -/
def ekeyLt (a b : EKey) : Bool :=
  match a, b with
  | (a1, a2, a3, a4), (b1, b2, b3, b4) =>
    if a1 < b1 then true else if b1 < a1 then false else
    if a2 < b2 then true else if b2 < a2 then false else
    if optStrLtB a3 b3 then true else if optStrLtB b3 a3 then false else
    decide (a4 < b4)


/-- Strict lexicographic order on code tuples. -/
def codeTLt (a b : CodeT) : Bool :=
  match a, b with
  | (a1, a2, a3, a4, a5, a6), (b1, b2, b3, b4, b5, b6) =>
    if a1 < b1 then true else if b1 < a1 then false else
    if a2 < b2 then true else if b2 < a2 then false else
    if strLtB a3 b3 then true else if strLtB b3 a3 then false else
    if strLtB a4 b4 then true else if strLtB b4 a4 then false else
    if strLtB a5 b5 then true else if strLtB b5 a5 then false else
    decide (a6 < b6)

/-- Strict lexicographic order on whole codes (Python tuple-of-tuples `<`;
a proper prefix is smaller). -/
def codeLt : List CodeT → List CodeT → Bool
  | [], [] => false
  | [], _ :: _ => true
  | _ :: _, [] => false
  | x :: xs, y :: ys =>
    if codeTLt x y then true else if codeTLt y x then false else codeLt xs ys

/-- `_CanonDFSHelper.canonical_code`: run the DFS enumeration from every
seed edge and keep the lexicographically smallest code. -/
def canonical_code (directed : Bool) (vlabels : List String)
    (edges : List GEdge) : List CodeT :=
  let keys := edgeKeysOf directed edges
  let sortedKeys := stableSort ekeyLt keys
  let seeds :=
    if directed then sortedKeys.filter (fun k => k.2.2.2 = 1) else sortedKeys
  let best :=
    seeds.foldl
      (fun best s =>
        match s with
        | (su, sv, el, df) =>
          let t := dfsEnumerate directed vlabels edges keys su sv el df
          match best with
          | none => some t
          | some b => if codeLt t b then some t else some b)
      none
  best.getD []

/-- `Pattern._canonical_key` / the cached `Pattern.key`. -/
def patKey (p : Pat) : Bool × List CodeT :=
  (p.directed, canonical_code p.directed p.vlabels p.edges)

/-! ### Embedding enumeration (`embed.py`, `EmbeddingEnumerator`) -/

/-- A (partial) embedding: pattern node to graph node, in assignment
order (Python's insertion-ordered `assignment` dict). -/
abbrev Emb := List (Nat × Nat)

def embGet : Emb → Nat → Option Nat
  | [], _ => none
  | pr :: t, u => if pr.1 = u then some pr.2 else embGet t u

/-- `assignment.values()`. -/
def embValues (a : Emb) : List Nat := a.map (·.2)

/-- `_initial_domains` followed by the `sorted(...)` of the search loop:
the ascending list of graph nodes whose label equals the pattern node's
label (`lab2nodes`). -/
def domainsOf (G : DGraph) (p : Pat) (u : Nat) : List Nat :=
  (List.range G.n).filter fun g => vlabG G g = vlabP p u

/-- Pattern-node degree as used by `_assignment_order` (`deg[e.u] += 1;
deg[e.v] += 1`, so a self-loop counts twice). -/
def degE (p : Pat) (u : Nat) : Nat :=
  p.edges.foldl
    (fun a e => a + (if e.u = u then 1 else 0) + (if e.v = u then 1 else 0)) 0

/-- The strict total order of `_assignment_order`'s sort key
`(len(domains[u]), -deg[u], u)`; the id component makes ties impossible. -/
def orderLt (G : DGraph) (p : Pat) (a b : Nat) : Bool :=
  let da := (domainsOf G p a).length
  let db := (domainsOf G p b).length
  if da < db then true else if db < da then false else
  if degE p b < degE p a then true else if degE p a < degE p b then false else
  decide (a < b)

/-- `_assignment_order`. -/
def assignOrder (G : DGraph) (p : Pat) : List Nat :=
  stableSort (orderLt G p) (List.range p.n)

/-- The `nbrs` map built at the start of both search functions: each edge
contributes `(e.v, label, 1)` at `e.u` and `(e.u, label, 1)` (undirected)
or `(e.u, label, 2)` (directed) at `e.v`. -/
def nbrsOf (p : Pat) (u : Nat) : List (Nat × Option String × Nat) :=
  p.edges.flatMap fun e =>
    (if e.u = u then [(e.v, e.label, 1)] else []) ++
      (if e.v = u then [(e.u, e.label, if p.directed then 2 else 1)] else [])

/-- `consistent(u_p, u_g)`: label match plus edge checks against the
already-assigned neighbors (tag 1 checks `has_edge(u_g, v_g)`, tag 2
checks `has_edge(v_g, u_g)`). -/
def consistentB (G : DGraph) (p : Pat) (a : Emb) (u g : Nat) : Bool :=
  decide (vlabP p u = vlabG G g) &&
    (nbrsOf p u).all fun ved =>
      match embGet a ved.1 with
      | none => true
      | some vg =>
        if ved.2.2 = 1 then hasEdge G g vg ved.2.1 else hasEdge G vg g ved.2.1

/-- The `backtrack` recursion of `full_mni_embeddings`, returning the
solutions in discovery order (the domain is iterated in ascending order,
matching `sorted(domains[u_p])`). -/
def searchEmb (G : DGraph) (p : Pat) : List Nat → Emb → List Emb
  | [], a => [a]
  | u :: rest, a =>
    (domainsOf G p u).flatMap fun g =>
      if g ∈ embValues a then []
      else if consistentB G p a u g then searchEmb G p rest (a ++ [(u, g)])
      else []

/-- `full_mni_embeddings(p)`. -/
def full_mni_embeddings (G : DGraph) (p : Pat) : List Emb :=
  searchEmb G p (assignOrder G p) []

/-- The `count >= cap` early-exit test of `full_support_count`. -/
def capHit (cap : Option Nat) (cnt : Nat) : Bool :=
  match cap with
  | none => false
  | some c => cnt ≥ c

/-- The `backtrack` recursion of `full_support_count`: counts instead of
recording, returning early (at entry of each recursive call) once the
cap is reached. -/
def countEmb (G : DGraph) (p : Pat) (cap : Option Nat) :
    List Nat → Emb → Nat → Nat
  | [], _, cnt => if capHit cap cnt then cnt else cnt + 1
  | u :: rest, a, cnt =>
    if capHit cap cnt then cnt
    else
      (domainsOf G p u).foldl
        (fun acc g =>
          if g ∈ embValues a then acc
          else if consistentB G p a u g then
            countEmb G p cap rest (a ++ [(u, g)]) acc
          else acc)
        cnt

/-- `full_support_count(p, cap)`. -/
def full_support_count (G : DGraph) (p : Pat) (cap : Option Nat) : Nat :=
  countEmb G p cap (assignOrder G p) [] 0

/-- Python's `min` over a nonempty list (0 on the empty list, which the
source never hits because `k = 0` is handled separately). -/
def natMin : List Nat → Nat
  | [] => 0
  | [x] => x
  | x :: y :: t => min x (natMin (y :: t))

/-- The graph nodes a fixed pattern node is mapped to across the
embeddings (`imgs[i]` before taking the set). -/
def imgList (embs : List Emb) (i : Nat) : List Nat :=
  embs.filterMap fun a => embGet a i

/-- `len(imgs[i])` (cardinality of the image set). -/
def imgCard (embs : List Emb) (i : Nat) : Nat := (imgList embs i).dedup.length

/-- `mni_support(embeddings, k)`. -/
def mni_support (embs : List Emb) (k : Nat) : Nat :=
  if k = 0 then 0 else natMin ((List.range k).map (imgCard embs))

/-! ### Heuristics (`miner.py`, `SoGraMiHeuristics`) -/

/-- `label_rarity(lab)`: number of nodes carrying the label. -/
def labRarity (G : DGraph) (lab : String) : Nat :=
  (G.vlabels.filter (· = lab)).length

/-- `self.deg[i] = len(G.adj[i])`. -/
def degG (G : DGraph) (i : Nat) : Nat := (adjL G i).length

/-- Strict sort relation of `neighbor_order`'s key `(label_rarity, -deg)`. -/
def neighLt (G : DGraph) (a b : Nat × Option String) : Bool :=
  let ra := labRarity G (vlabG G a.1)
  let rb := labRarity G (vlabG G b.1)
  if ra < rb then true else if rb < ra then false else
  decide (degG G b.1 < degG G a.1)

/-- `neighbor_order(u)`. -/
def neighborOrder (G : DGraph) (u : Nat) : List (Nat × Option String) :=
  stableSort (neighLt G) (adjL G u)

/-- `degree_prune(need_deg, cand_deg)`. -/
def degreePrune (needDeg candDeg : Nat) : Bool := candDeg ≥ needDeg

/-! ### Candidate generation (`candidate.py`, `CandidateGenerator`) -/

/-- Edge type `(lu, lv, elabel, dflag)` used for pre-filtering. -/
abbrev EType := String × String × Option String × Nat

def normLabs (lu lv : String) : String × String :=
  if strLeB lu lv then (lu, lv) else (lv, lu)

/-- First pass of `_rmpath`: reconstruct the parent pointers from the
first code tuple that discovers each DFS index. -/
def rmParentsAux : List CodeT → List Nat → List (Nat × Nat) → List (Nat × Nat)
  | [], _, par => par
  | c :: rest, seen, par =>
    let f := c.1
    let t := c.2.1
    let seen1 := if f ∈ seen then seen else seen ++ [f]
    if t ∈ seen1 then rmParentsAux rest seen1 par
    else rmParentsAux rest (seen1 ++ [t]) (par ++ [(t, f)])

/-- The `while path[-1] in parent` climb of `_rmpath` (fuel-bounded; the
parent map is a forest so `|code| + 1` steps always suffice). -/
def chainUp (par : List (Nat × Nat)) : Nat → Nat → List Nat
  | 0, r => [r]
  | fuel + 1, r =>
    match embGet par r with
    | none => [r]
    | some f => r :: chainUp par fuel f

/-- `CandidateGenerator._rmpath`. -/
def rmpathOf (p : Pat) : List Nat :=
  let code := canonical_code p.directed p.vlabels p.edges
  if code.isEmpty then List.range p.n
  else
    let par := rmParentsAux code [] []
    let r := (code.flatMap fun c => [c.1, c.2.1]).foldl Nat.max 0
    (chainUp par (code.length + 1) r).reverse

/-- A one-edge extension proposal, before being turned into a `Pattern`:
a back edge between two existing pattern nodes, a forward edge to a fresh
vertex, or (directed only) an incoming edge from a fresh vertex. -/
inductive ExtP where
  | back (a b : Nat) (el : Option String)
  | fwdOut (u : Nat) (lv : String) (el : Option String)
  | fwdIn (u : Nat) (lv : String) (el : Option String)
deriving DecidableEq

/-- Build the extended `Pattern` exactly as the three `Pattern(...)`
constructions inside `extensions` do. -/
def mkExt (p : Pat) : ExtP → Pat
  | .back a b el => ⟨p.directed, p.vlabels, p.edges ++ [⟨a, b, el⟩]⟩
  | .fwdOut u lv el => ⟨p.directed, p.vlabels ++ [lv], p.edges ++ [⟨u, p.n, el⟩]⟩
  | .fwdIn u lv el => ⟨true, p.vlabels ++ [lv], p.edges ++ [⟨p.n, u, el⟩]⟩

/-- Membership in `Pattern.edge_set()` (normalized `(min,max)` endpoints
for undirected patterns). -/
def edgeSetMem (p : Pat) (a b : Nat) (el : Option String) : Bool :=
  if p.directed then p.edges.any fun e => e.u = a ∧ e.v = b ∧ e.label = el
  else p.edges.any fun e =>
    min e.u e.v = min a b ∧ max e.u e.v = max a b ∧ e.label = el

/-- `allowed_edge_types` filter (`none` means no pre-filter). -/
def allowMem (allowed : Option (List EType)) (t : EType) : Bool :=
  match allowed with
  | none => true
  | some l => t ∈ l

/-- `pat_deg(u_p)` inside `extensions` (counts incident edges; a
self-loop counts once because of the `or`). -/
def patDeg (p : Pat) (u : Nat) : Nat :=
  (p.edges.filter fun e => e.u = u ∨ e.v = u).length

/-- Back-edge proposals for one ancestor `w` of `rm` (both mapped). -/
def backPropsW (G : DGraph) (p : Pat) (allowed : Option (List EType))
    (rm w ug wg : Nat) : List ExtP :=
  if p.directed = false then
    if hasEdge G ug wg none || hasEdge G wg ug none then
      let labs0 := (adjL G ug).filterMap fun pr =>
        if pr.1 = wg then some pr.2 else none
      let labs :=
        if labs0.isEmpty then
          (adjL G wg).filterMap fun pr => if pr.1 = ug then some pr.2 else none
        else labs0
      labs.filterMap fun elb =>
        if edgeSetMem p rm w elb then none
        else if allowMem allowed ((normLabs (vlabP p rm) (vlabP p w)).1,
            (normLabs (vlabP p rm) (vlabP p w)).2, elb, 0) then
          some (.back rm w elb)
        else none
    else []
  else
    (if hasEdge G ug wg none then
      ((adjL G ug).filterMap fun pr =>
        if pr.1 = wg then some pr.2 else none).filterMap fun elb =>
          if edgeSetMem p rm w elb then none
          else if allowMem allowed (vlabP p rm, vlabP p w, elb, 1) then
            some (.back rm w elb)
          else none
    else []) ++
    (if hasEdge G wg ug none then
      ((adjL G wg).filterMap fun pr =>
        if pr.1 = ug then some pr.2 else none).filterMap fun elb =>
          if edgeSetMem p w rm elb then none
          else if allowMem allowed (vlabP p w, vlabP p rm, elb, 1) then
            some (.back w rm elb)
          else none
    else [])

/-- Forward (outgoing) proposals from `u_p` mapped to `u_g`. -/
def fwdOutProps (G : DGraph) (p : Pat) (useHeur : Bool)
    (allowed : Option (List EType)) (emb : Emb) (up ug : Nat) : List ExtP :=
  let neigh := if useHeur then neighborOrder G ug else adjL G ug
  neigh.filterMap fun pr =>
    if pr.1 ∈ embValues emb then none
    else if useHeur ∧ ¬degreePrune (patDeg p up + 1) (degG G pr.1) then none
    else if p.directed then
      if allowMem allowed (vlabP p up, vlabG G pr.1, pr.2, 1) then
        some (.fwdOut up (vlabG G pr.1) pr.2)
      else none
    else if allowMem allowed ((normLabs (vlabP p up) (vlabG G pr.1)).1,
        (normLabs (vlabP p up) (vlabG G pr.1)).2, pr.2, 0) then
      some (.fwdOut up (vlabG G pr.1) pr.2)
    else none

/-- Incoming proposals (`G.rev`) from `u_p`, directed graphs only. -/
def fwdInProps (G : DGraph) (p : Pat) (useHeur : Bool)
    (allowed : Option (List EType)) (emb : Emb) (up ug : Nat) : List ExtP :=
  if G.directed then
    let inn0 := revL G ug
    let inn := if useHeur then stableSort (neighLt G) inn0 else inn0
    inn.filterMap fun pr =>
      if pr.1 ∈ embValues emb then none
      else if useHeur ∧ ¬degreePrune (patDeg p up + 1) (degG G pr.1) then none
      else if allowMem allowed (vlabG G pr.1, vlabP p up, pr.2, 1) then
        some (.fwdIn up (vlabG G pr.1) pr.2)
      else none
  else []

/-- All proposals contributed by one embedding, in emission order:
back edges from `rm` to the ancestors in reverse, then forward growth
from the growth set (`[rm] + ancestors` with heuristics, else the whole
right-most path). -/
def propsOfEmb (G : DGraph) (p : Pat) (useHeur : Bool)
    (allowed : Option (List EType)) (rm : Nat) (ancestors : List Nat)
    (emb : Emb) : List ExtP :=
  let backPart :=
    match embGet emb rm with
    | none => []
    | some ug =>
      ancestors.reverse.flatMap fun w =>
        match embGet emb w with
        | none => []
        | some wg => backPropsW G p allowed rm w ug wg
  let growVerts := if useHeur then rm :: ancestors else ancestors ++ [rm]
  let fwdPart := growVerts.flatMap fun up =>
    match embGet emb up with
    | none => []
    | some ug =>
      fwdOutProps G p useHeur allowed emb up ug ++
        fwdInProps G p useHeur allowed emb up ug
  backPart ++ fwdPart

/-- The `produced` set of `extensions`: keep the first pattern yielded
for each canonical key. -/
def dedupByKey (l : List Pat) : List Pat :=
  (l.foldl
    (fun acc q =>
      if patKey q ∈ acc.2 then acc else (acc.1 ++ [q], acc.2 ++ [patKey q]))
    ([], [])).1

/-- `CandidateGenerator.extensions(p, embeddings, heur, allowed_edge_types)`
as the list of yielded patterns in order. -/
def extensions (G : DGraph) (p : Pat) (embs : List Emb) (useHeur : Bool)
    (allowed : Option (List EType)) : List Pat :=
  let rmp0 := rmpathOf p
  let rmp := if rmp0.isEmpty then List.range p.n else rmp0
  let rm := rmp.getLast?.getD 0
  let ancestors := rmp.dropLast
  dedupByKey ((embs.flatMap (propsOfEmb G p useHeur allowed rm ancestors)).map (mkExt p))

/-! ### Edge-type counts and seeds -/

/-- The edge type recorded by `edge_type_counts` for one adjacency entry
of row `u` (`none` when the undirected `u > v` guard skips it). -/
def etcEntry (G : DGraph) (u : Nat) (pr : Nat × Option String) :
    Option EType :=
  if G.directed then some (vlabG G u, vlabG G pr.1, pr.2, 1)
  else if u > pr.1 then none
  else some ((normLabs (vlabG G u) (vlabG G pr.1)).1,
    (normLabs (vlabG G u) (vlabG G pr.1)).2, pr.2, 0)

/-- The stream of normalized edge types produced by the iteration inside
`edge_type_counts` (directed: every forward entry; undirected: entries
with `u <= v`, labels normalized). -/
def etcStream (G : DGraph) : List EType :=
  (List.range G.n).flatMap fun u => (adjL G u).filterMap (etcEntry G u)

/-- `edge_type_counts()[t]` (0 when absent). -/
def edge_type_count (G : DGraph) (t : EType) : Nat := (etcStream G).count t

/-- `edge_type_counts()` as the insertion-ordered association list the
`defaultdict` holds. -/
def countsListOf (G : DGraph) : List (EType × Nat) :=
  (etcStream G).foldl
    (fun acc t =>
      if acc.any fun pr => decide (pr.1 = t) then
        acc.map fun pr => if pr.1 = t then (pr.1, pr.2 + 1) else pr
      else acc ++ [(t, 1)])
    []

/-- The seed candidate one adjacency entry of row `u` contributes in
`seed_patterns`: the dedup tuple paired with the (unnormalized) vertex
labels of the pattern that would be yielded (`none` when the undirected
`u >= v` guard skips the entry). -/
def seedEntry (G : DGraph) (u : Nat) (pr : Nat × Option String) :
    Option ((String × String × Option String × Bool) × String × String) :=
  if G.directed then
    some ((vlabG G u, vlabG G pr.1, pr.2, true), vlabG G u, vlabG G pr.1)
  else if u ≥ pr.1 then none
  else
    some (((normLabs (vlabG G u) (vlabG G pr.1)).1,
      (normLabs (vlabG G u) (vlabG G pr.1)).2, pr.2, false),
      vlabG G u, vlabG G pr.1)

/-- Seed tuples used for deduplication in `seed_patterns`, paired with
the labels of the patterns that would be yielded, in iteration order. -/
def seedStream (G : DGraph) :
    List ((String × String × Option String × Bool) × String × String) :=
  (List.range G.n).flatMap fun u => (adjL G u).filterMap (seedEntry G u)

def dedupStep {α : Type} [DecidableEq α] (acc : List α) (t : α) : List α :=
  if t ∈ acc then acc else acc ++ [t]

def dedupFirst {α : Type} [DecidableEq α] (l : List α) : List α :=
  l.foldl dedupStep []

/-- The distinct seed tuples in yield order (the `seen` set). -/
def seedTuples (G : DGraph) : List (String × String × Option String × Bool) :=
  dedupFirst ((seedStream G).map (·.1))

/-- One step of the `seen`-set loop of `seed_patterns`: skip the entry
when its tuple was already seen, otherwise yield the pattern and mark
the tuple seen. -/
def seedStep (G : DGraph)
    (acc : List Pat × List (String × String × Option String × Bool))
    (x : (String × String × Option String × Bool) × String × String) :
    List Pat × List (String × String × Option String × Bool) :=
  if x.1 ∈ acc.2 then acc
  else
    (acc.1 ++ [(⟨G.directed, [x.2.1, x.2.2], [⟨0, 1, x.1.2.2.1⟩]⟩ : Pat)],
      acc.2 ++ [x.1])

/-- `CandidateGenerator.seed_patterns()` as the list of yielded patterns. -/
def seed_patterns (G : DGraph) : List Pat :=
  ((seedStream G).foldl (seedStep G) ([], [])).1

/-! ### Mining drivers (`miner.py`) -/

/-- A result record `{pattern, support, full_support, embeddings}`. -/
abbrev MRec := Pat × Nat × Nat × List Emb

/-- The `results` dict: canonical key to record, insertion ordered. -/
abbrev ResMap := List ((Bool × List CodeT) × MRec)

def resHas (r : ResMap) (k : Bool × List CodeT) : Bool := r.any fun pr => decide (pr.1 = k)

def resUpsert (r : ResMap) (k : Bool × List CodeT) (v : MRec) : ResMap :=
  if resHas r k then r.map fun pr => if pr.1 = k then (k, v) else pr
  else r ++ [(k, v)]

/-- One pass of the frontier loop shared by `SuGraMiMiner.mine` and
`SoPaGraMiMiner.mine`: evaluate each frontier pattern, gate on MNI
support, record survivors, collect extensions not yet in `results`, and
deduplicate the next frontier by key. -/
def mineRound (G : DGraph) (tau : Nat) (maxSize : Option Nat) (useHeur : Bool)
    (allowed : Option (List EType)) (frontier : List Pat) (results : ResMap) :
    ResMap × List Pat :=
  let step := frontier.foldl
    (fun acc p =>
      let embs := full_mni_embeddings G p
      let supp := mni_support embs p.n
      if supp ≥ tau then
        let fs := full_support_count G p none
        let res2 := resUpsert acc.1 (patKey p) (p, supp, fs, embs)
        let nxt2 :=
          if (match maxSize with
              | none => true
              | some ms => p.n < ms) then
            acc.2 ++ (extensions G p embs useHeur allowed).filter
              fun q => ¬resHas res2 (patKey q)
          else acc.2
        (res2, nxt2)
      else acc)
    (results, ([] : List Pat))
  (step.1,
    (step.2.foldl
      (fun acc q =>
        if patKey q ∈ acc.2 then acc else (acc.1 ++ [q], acc.2 ++ [patKey q]))
      (([] : List Pat), [])).1)

/-- The `while frontier` loop, fuel-bounded (every concrete run below
terminates well within the fuel supplied). -/
def mineLoop (G : DGraph) (tau : Nat) (maxSize : Option Nat) (useHeur : Bool)
    (allowed : Option (List EType)) : Nat → List Pat → ResMap → ResMap
  | 0, _, res => res
  | fuel + 1, frontier, res =>
    if frontier.isEmpty then res
    else
      let rr := mineRound G tau maxSize useHeur allowed frontier res
      mineLoop G tau maxSize useHeur allowed fuel rr.2 rr.1

/-- `SuGraMiMiner.mine(min_support, max_size)` (sequential evaluation;
the parallel path computes the same per-pattern embeddings). -/
def suMine (G : DGraph) (tau : Nat) (maxSize : Option Nat) (fuel : Nat) :
    ResMap :=
  mineLoop G tau maxSize false none fuel (seed_patterns G) []

/-- `SoPaGraMiMiner.mine`: pre-filter edge types with count at least tau,
seed from the allowed types sorted by descending count, and pass the
heuristics (when `use_sorting`) and the allowed set to `extensions`. -/
def soPaMine (G : DGraph) (tau : Nat) (maxSize : Option Nat)
    (useSorting : Bool) (fuel : Nat) : ResMap :=
  let counts := countsListOf G
  let allowed := (counts.filter fun pr => pr.2 ≥ tau).map (·.1)
  let seeds0 := counts.filterMap fun pr =>
    if pr.2 ≥ tau then
      some ((⟨(pr.1.2.2.2 = 1 : Bool), [pr.1.1, pr.1.2.1],
        [⟨0, 1, pr.1.2.2.1⟩]⟩ : Pat), pr.2)
    else none
  let seeds := stableSort (fun a b => b.2 < a.2) seeds0
  mineLoop G tau maxSize useSorting (some allowed) fuel (seeds.map (·.1)) []

/-- Keys of the result map (for result-set comparisons). -/
def resKeys (r : ResMap) : List (Bool × List CodeT) := r.map (·.1)

/-! ### Semantic predicates -/

/-- Invariant of a partial assignment maintained by the backtracking
search: injectivity, and edge-preservation for every pattern edge with
distinct endpoints whose two ends are both assigned. -/
def EmbInv (G : DGraph) (p : Pat) (a : Emb) : Prop :=
  (∀ i j g, embGet a i = some g → embGet a j = some g → i = j) ∧
  (∀ e ∈ p.edges, e.u ≠ e.v → ∀ gu gv, embGet a e.u = some gu →
    embGet a e.v = some gv → hasEdge G gu gv e.label = true)

/-- Validity of a total embedding function for `p` in `G`: maps pattern
nodes to label-matching graph nodes, injectively, preserving every
pattern edge with distinct endpoints (self-loop pattern edges are never
checked by the search; see claim C3). -/
def ValidEmb (G : DGraph) (p : Pat) (f : Nat → Nat) : Prop :=
  (∀ i, i < p.n → f i < G.n ∧ vlabG G (f i) = vlabP p i) ∧
  (∀ i, i < p.n → ∀ j, j < p.n → f i = f j → i = j) ∧
  (∀ e ∈ p.edges, e.u ≠ e.v → hasEdge G (f e.u) (f e.v) e.label = true)

/-- The normalized undirected edge type of a stored edge, as the claim
about `edge_type_counts` states it. -/
def undirectedTypeOf (G : DGraph) (e : GEdge) : EType :=
  ((normLabs (vlabG G e.u) (vlabG G e.v)).1,
    (normLabs (vlabG G e.u) (vlabG G e.v)).2, e.label, 0)

/-- The seed label tuple an edge of `G` gives rise to (directed tuples
keep the edge orientation; undirected tuples normalize the label pair). -/
def seedTupleOf (G : DGraph) (e : GEdge) :
    String × String × Option String × Bool :=
  if G.directed then (vlabG G e.u, vlabG G e.v, e.label, true)
  else ((normLabs (vlabG G e.u) (vlabG G e.v)).1,
    (normLabs (vlabG G e.u) (vlabG G e.v)).2, e.label, false)

/-! ### Concrete instances used to settle claims -/

/-- The single undirected edge `A—B` presented with node ids `0,1`. -/
def exPab : Pat := ⟨false, ["A", "B"], [⟨0, 1, none⟩]⟩

/-- The same single undirected edge with the two node ids swapped
(vertex 0 now carries `B`); the edge list is the permuted image of
`exPab`'s, in the same order. -/
def exPba : Pat := ⟨false, ["B", "A"], [⟨1, 0, none⟩]⟩

/-- Single-edge pattern `A—B`. -/
def exR1 : Pat := ⟨false, ["A", "B"], [⟨0, 1, none⟩]⟩

/-- Same labels but two parallel copies of the identical edge: the edge
multiset differs from `exR1`'s. -/
def exR2 : Pat := ⟨false, ["A", "B"], [⟨0, 1, none⟩, ⟨0, 1, none⟩]⟩

/-- Data graph with one undirected edge `X—Y`. -/
def exGxy : DGraph := ⟨false, ["X", "Y"], [⟨0, 1, none⟩]⟩

/-- The frequent single-edge pattern of `exGxy` presented as `[Y, X]`. -/
def exPyx : Pat := ⟨false, ["Y", "X"], [⟨0, 1, none⟩]⟩

/-- The single-edge pattern of `exGxy` presented as `[X, Y]`. -/
def exPXYpat : Pat := ⟨false, ["X", "Y"], [⟨0, 1, none⟩]⟩

/-- Star data graph: center labeled `C`, two leaves labeled `L`. -/
def exGstar : DGraph := ⟨false, ["C", "L", "L"], [⟨0, 1, none⟩, ⟨0, 2, none⟩]⟩

/-- The 3-node path pattern `L—C—L` (the one extension of the `C—L`
seed in `exGstar`). -/
def exPlcl : Pat := ⟨false, ["C", "L", "L"], [⟨0, 1, none⟩, ⟨0, 2, none⟩]⟩

/-- The seed pattern `C—L` of `exGstar`. -/
def exPcl : Pat := ⟨false, ["C", "L"], [⟨0, 1, none⟩]⟩

/-- Undirected data graph consisting of a single self-loop on an
`A`-labeled node. -/
def exGloop : DGraph := ⟨false, ["A"], [⟨0, 0, none⟩]⟩

/-- Graph with one `A` node and no edges. -/
def exGnoedge : DGraph := ⟨false, ["A"], []⟩

/-- Pattern with a single self-loop on an `A` node. -/
def exPloop : Pat := ⟨false, ["A"], [⟨0, 0, none⟩]⟩

/-! ### Claim C1 -/

/-- C1: `Pattern.key` is claimed to be invariant under permutations of
pattern-node ids and edge-list reorderings.  Evaluating the code at the
failing input: the single undirected edge `A—B` and its image under the
node swap `0 ↔ 1` (edge list mapped in place) receive different keys, so
the canonicalizer violates the invariance the claim (and the code's own
documentation) states. -/
theorem c1_key_not_isomorphism_invariant : patKey exPab ≠ patKey exPba := by
  decide

/-! ### Claim C9 -/

/-- C9: patterns whose edge multisets differ are claimed to get unequal
keys.  Evaluating the code at the failing input: `A—B` with one edge and
`A—B` with two identical parallel edges (different edge multisets) get
the same canonical key, because `edge_keys` is a set and collapses the
duplicate. -/
theorem c9_key_collision_on_different_edge_multisets :
    patKey exR1 = patKey exR2 ∧ exR1.edges.length ≠ exR2.edges.length := by
  constructor
  · decide
  · decide

/-! ### Claim C2 -/

/-- C2: the mining result is claimed to contain an entry for every
frequent connected pattern, keyed by that pattern's canonical key.
Evaluating the code at the failing input: on the single-edge graph
`X—Y` with tau = 1, the pattern presented as `[Y, X]` is connected and
has MNI support 1 ≥ tau, yet its canonical key is absent from
`SuGraMiMiner.mine`'s result map (the run records only the key of the
`[X, Y]` presentation, and the two keys differ). -/
theorem c2_mine_misses_frequent_pattern_key :
    mni_support (full_mni_embeddings exGxy exPyx) exPyx.n = 1 ∧
      resHas (suMine exGxy 1 none 10) (patKey exPyx) = false := by
  constructor
  · decide
  · decide

/-! ### Claim C6 -/

/-- C6 counterexample: mining `exGstar` with tau = 1 under
`SoPaGraMiMiner`, the heuristic run (`use_sorting = True`) omits the
`L—C—L` pattern that the non-heuristic run reports (`degree_prune`
rejects the degree-1 leaf), so the two runs do not return the same set
of canonical keys, contradicting the claim. -/
theorem c6_heuristics_change_result_set :
    resHas (soPaMine exGstar 1 none false 10) (patKey exPlcl) = true ∧
      resHas (soPaMine exGstar 1 none true 10) (patKey exPlcl) = false := by
  constructor
  · decide
  · decide

/-! ### Claim C7 -/

/-- C7 counterexample: on the undirected single-self-loop graph the
stored loop contributes 2 (both adjacency copies pass the `u > v` skip),
while the claim says every stored undirected edge, including self-loops,
contributes exactly 1 — the graph has exactly one edge of that type. -/
theorem c7_self_loop_counted_twice :
    edge_type_count exGloop ("A", "A", none, 0) = 2 ∧
      exGloop.edges.length = 1 := by
  constructor
  · decide
  · decide

/-! ### Claim C8 -/

/-- C8 counterexample: the undirected self-loop's edge type is present in
the graph (`edge_type_counts` reports it), yet `seed_patterns` yields no
seed at all (the `u >= v` guard skips both adjacency copies), so an edge
type of `G` is left uncovered, contradicting the claim. -/
theorem c8_self_loop_type_uncovered :
    edge_type_count exGloop ("A", "A", none, 0) ≠ 0 ∧
      seed_patterns exGloop = [] := by
  constructor
  · decide
  · decide

/-! ### Claim C3 counterexample -/

/-- C3 counterexample: on the edgeless one-node graph, the pattern with a
single self-loop gets the embedding `0 ↦ 0` reported even though the
graph has no edge at all — `consistent` skips the self-loop edge because
its other endpoint is never "already assigned", so the reported mapping
is not edge-preserving as the claim states. -/
theorem c3_self_loop_edge_not_checked :
    full_mni_embeddings exGnoedge exPloop = [[(0, 0)]] ∧
      hasEdge exGnoedge 0 0 none = false := by
  constructor
  · decide
  · decide

/-! ### Claim C10 -/

theorem natMin_le_of_mem :
    ∀ (l : List Nat) (x : Nat), x ∈ l → natMin l ≤ x := by
  intro l
  induction l with
  | nil => intro x hx; exact absurd hx (List.not_mem_nil x)
  | cons a t ih =>
    intro x hx
    cases t with
    | nil =>
      have hxa : x = a := by simpa using hx
      subst hxa; simp [natMin]
    | cons b t2 =>
      have hmin : natMin (a :: b :: t2) = min a (natMin (b :: t2)) := rfl
      rcases List.mem_cons.mp hx with h | h
      · subst h; rw [hmin]; exact min_le_left _ _
      · rw [hmin]
        exact le_trans (min_le_right _ _) (ih x h)

/-- C10: `mni_support` over an empty embedding list returns 0 for every
`k ≥ 1` (each of the `k` image sets is empty), so a pattern with no
embeddings gets support 0 at the driver's support gate. -/
theorem c10_mni_support_empty (k : Nat) (hk : 1 ≤ k) :
    mni_support ([] : List Emb) k = 0 := by
  have h0 : (0 : Nat) ∈ (List.range k).map (imgCard ([] : List Emb)) :=
    List.mem_map.mpr ⟨0, List.mem_range.mpr hk, rfl⟩
  have hle := natMin_le_of_mem _ _ h0
  have hk0 : ¬k = 0 := by omega
  simp only [mni_support, if_neg hk0]
  omega

/-- C10 witness at `k = 3`. -/
theorem c10_mni_support_empty_witness :
    1 ≤ 3 ∧ mni_support ([] : List Emb) 3 = 0 :=
  ⟨by decide, c10_mni_support_empty 3 (by decide)⟩

/-! ### General lemmas about the embedding search -/

theorem insSorted_perm {α : Type} (lt : α → α → Bool) (x : α) :
    ∀ (l : List α), (insSorted lt x l).Perm (x :: l) := by
  intro l
  induction l with
  | nil => simp [insSorted]
  | cons y t ih =>
    by_cases h : lt y x
    · simp only [insSorted, if_pos h]
      exact (ih.cons y).trans (List.Perm.swap x y t)
    · simp [insSorted, if_neg h]

theorem stableSort_perm {α : Type} (lt : α → α → Bool) :
    ∀ (l : List α), (stableSort lt l).Perm l := by
  intro l
  induction l with
  | nil => simp [stableSort]
  | cons x t ih =>
    exact (insSorted_perm lt x (stableSort lt t)).trans (ih.cons x)

/-- The assignment order is a permutation of the pattern-node range. -/
theorem assignOrder_perm (G : DGraph) (p : Pat) :
    (assignOrder G p).Perm (List.range p.n) :=
  stableSort_perm _ _

theorem assignOrder_nodup (G : DGraph) (p : Pat) : (assignOrder G p).Nodup :=
  (assignOrder_perm G p).nodup_iff.mpr (List.nodup_range p.n)

theorem mem_assignOrder (G : DGraph) (p : Pat) (u : Nat) :
    u ∈ assignOrder G p ↔ u < p.n := by
  rw [(assignOrder_perm G p).mem_iff, List.mem_range]

theorem embGet_append (a : Emb) (u g i : Nat) :
    embGet (a ++ [(u, g)]) i =
      match embGet a i with
      | some x => some x
      | none => if i = u then some g else none := by
  induction a with
  | nil => simp [embGet, eq_comm]
  | cons pr t ih =>
    by_cases h : pr.1 = i
    · simp [embGet, h]
    · simpa [embGet, h] using ih

theorem embGet_mem_values (a : Emb) (i g : Nat) (h : embGet a i = some g) :
    g ∈ embValues a := by
  induction a with
  | nil => simp [embGet] at h
  | cons pr t ih =>
    by_cases hpr : pr.1 = i
    · simp [embGet, hpr] at h
      simp [embValues, h]
    · simp only [embGet, if_neg hpr] at h
      simp [embValues] at ih ⊢
      exact Or.inr (by simpa [embValues] using ih h)

/-! ### Claim C4 -/

theorem countEmb_none_eq (G : DGraph) (p : Pat) :
    ∀ (order : List Nat) (a : Emb) (cnt : Nat),
      countEmb G p none order a cnt = cnt + (searchEmb G p order a).length := by
  intro order
  induction order with
  | nil => intro a cnt; simp [countEmb, searchEmb, capHit]
  | cons u rest ih =>
    intro a cnt
    have main :
        ∀ (l : List Nat) (c : Nat),
          l.foldl
            (fun acc g =>
              if g ∈ embValues a then acc
              else if consistentB G p a u g then
                countEmb G p none rest (a ++ [(u, g)]) acc
              else acc)
            c =
          c + (l.flatMap fun g =>
            if g ∈ embValues a then []
            else if consistentB G p a u g then searchEmb G p rest (a ++ [(u, g)])
            else []).length := by
      intro l
      induction l with
      | nil => intro c; simp
      | cons g0 t iht =>
        intro c
        simp only [List.foldl_cons, List.flatMap_cons, List.length_append]
        rw [iht]
        by_cases h1 : g0 ∈ embValues a
        · simp [h1]
        · by_cases h2 : consistentB G p a u g0
          · simp only [if_neg h1, if_pos h2]
            rw [ih]
            omega
          · simp [h1, h2]
    simpa [countEmb, searchEmb, capHit] using main (domainsOf G p u) cnt

/-- C4: with no cap, `full_support_count(p)` equals the number of
embeddings returned by `full_mni_embeddings(p)` — the two functions run
the same backtracking search, one counting and one recording. -/
theorem c4_count_eq_embeddings_length (G : DGraph) (p : Pat) :
    full_support_count G p none = (full_mni_embeddings G p).length := by
  simpa [full_support_count, full_mni_embeddings] using
    countEmb_none_eq G p (assignOrder G p) [] 0

/-! ### Adjacency and consistency lemmas -/

theorem adjL_mem_iff (G : DGraph) (u : Nat) (pr : Nat × Option String) :
    pr ∈ adjL G u ↔ ∃ e ∈ G.edges,
      (e.u = u ∧ pr = (e.v, e.label)) ∨
      (G.directed = false ∧ e.v = u ∧ pr = (e.u, e.label)) := by
  unfold adjL
  rw [List.mem_flatMap]
  constructor
  · rintro ⟨e, he, hmem⟩
    rcases List.mem_append.mp hmem with h | h
    · refine ⟨e, he, Or.inl ?_⟩
      by_cases hc : e.u = u
      · simp only [if_pos hc, List.mem_singleton] at h; exact ⟨hc, h⟩
      · simp [hc] at h
    · refine ⟨e, he, Or.inr ?_⟩
      by_cases hc : G.directed = false ∧ e.v = u
      · simp only [if_pos hc, List.mem_singleton] at h
        exact ⟨hc.1, hc.2, h⟩
      · simp [hc] at h
  · rintro ⟨e, he, h | h⟩
    · exact ⟨e, he, List.mem_append.mpr (Or.inl (by simp [h.1, h.2]))⟩
    · exact ⟨e, he,
        List.mem_append.mpr (Or.inr (by simp [h.1, h.2.1, h.2.2]))⟩

theorem hasEdge_iff (G : DGraph) (u v : Nat) (lab : Option String) :
    hasEdge G u v lab = true ↔
      ∃ pr ∈ adjL G u, pr.1 = v ∧ (lab = none ∨ pr.2 = lab) := by
  simp [hasEdge, List.any_eq_true]

/-- For undirected graphs the adjacency is symmetric, hence so is
`has_edge` (spec invariant G1). -/
theorem hasEdge_symm (G : DGraph) (hd : G.directed = false) (x y : Nat)
    (lab : Option String) (h : hasEdge G x y lab = true) :
    hasEdge G y x lab = true := by
  rw [hasEdge_iff] at h ⊢
  obtain ⟨pr, hpr, h1, h2⟩ := h
  rw [adjL_mem_iff] at hpr
  obtain ⟨e, he, hcase⟩ := hpr
  rcases hcase with ⟨heu, hpre⟩ | ⟨_, hev, hpre⟩
  · refine ⟨(e.u, e.label), ?_, ?_, ?_⟩
    · rw [adjL_mem_iff]
      refine ⟨e, he, Or.inr ⟨hd, ?_, rfl⟩⟩
      rw [← h1, hpre]
    · simpa using heu
    · rcases h2 with h2 | h2
      · exact Or.inl h2
      · exact Or.inr (by rw [← h2, hpre])
  · refine ⟨(e.v, e.label), ?_, ?_, ?_⟩
    · rw [adjL_mem_iff]
      refine ⟨e, he, Or.inl ⟨?_, rfl⟩⟩
      rw [← h1, hpre]
    · simpa using hev
    · rcases h2 with h2 | h2
      · exact Or.inl h2
      · exact Or.inr (by rw [← h2, hpre])

theorem nbrsOf_mem_iff (p : Pat) (u : Nat) (ved : Nat × Option String × Nat) :
    ved ∈ nbrsOf p u ↔ ∃ e ∈ p.edges,
      (e.u = u ∧ ved = (e.v, e.label, 1)) ∨
      (e.v = u ∧ ved = (e.u, e.label, if p.directed then 2 else 1)) := by
  unfold nbrsOf
  rw [List.mem_flatMap]
  constructor
  · rintro ⟨e, he, hmem⟩
    rcases List.mem_append.mp hmem with h | h
    · refine ⟨e, he, Or.inl ?_⟩
      by_cases hc : e.u = u
      · simp only [if_pos hc, List.mem_singleton] at h; exact ⟨hc, h⟩
      · simp [hc] at h
    · refine ⟨e, he, Or.inr ?_⟩
      by_cases hc : e.v = u
      · simp only [if_pos hc, List.mem_singleton] at h; exact ⟨hc, h⟩
      · simp [hc] at h
  · rintro ⟨e, he, h | h⟩
    · exact ⟨e, he, List.mem_append.mpr (Or.inl (by simp [h.1, h.2]))⟩
    · exact ⟨e, he, List.mem_append.mpr (Or.inr (by simp [h.1, h.2]))⟩

theorem mem_domainsOf (G : DGraph) (p : Pat) (u g : Nat) :
    g ∈ domainsOf G p u ↔ g < G.n ∧ vlabG G g = vlabP p u := by
  simp [domainsOf, List.mem_filter, List.mem_range]

theorem embGet_append_of_some (a : Emb) (u g i x : Nat)
    (h : embGet a i = some x) : embGet (a ++ [(u, g)]) i = some x := by
  rw [embGet_append, h]

theorem embGet_append_of_none (a : Emb) (u g i : Nat)
    (h : embGet a i = none) :
    embGet (a ++ [(u, g)]) i = if i = u then some g else none := by
  rw [embGet_append, h]

theorem consistentB_label (G : DGraph) (p : Pat) (a : Emb) (u g : Nat)
    (h : consistentB G p a u g = true) : vlabP p u = vlabG G g := by
  unfold consistentB at h
  rw [Bool.and_eq_true] at h
  exact of_decide_eq_true h.1

theorem consistentB_all (G : DGraph) (p : Pat) (a : Emb) (u g : Nat)
    (h : consistentB G p a u g = true) :
    ∀ ved ∈ nbrsOf p u, ∀ vg, embGet a ved.1 = some vg →
      (if ved.2.2 = 1 then hasEdge G g vg ved.2.1
       else hasEdge G vg g ved.2.1) = true := by
  unfold consistentB at h
  rw [Bool.and_eq_true] at h
  have hall := h.2
  rw [List.all_eq_true] at hall
  intro ved hmem vg hvg
  have h3 := hall ved hmem
  simp only [hvg] at h3
  exact h3

theorem consistentB_of (G : DGraph) (p : Pat) (a : Emb) (u g : Nat)
    (hlab : vlabP p u = vlabG G g)
    (hch : ∀ ved ∈ nbrsOf p u, ∀ vg, embGet a ved.1 = some vg →
      (if ved.2.2 = 1 then hasEdge G g vg ved.2.1
       else hasEdge G vg g ved.2.1) = true) :
    consistentB G p a u g = true := by
  unfold consistentB
  rw [Bool.and_eq_true]
  refine ⟨decide_eq_true hlab, ?_⟩
  rw [List.all_eq_true]
  intro ved hmem
  cases hvg : embGet a ved.1 with
  | none => simp
  | some vg =>
    have := hch ved hmem vg hvg
    simpa using this

/-- One assignment step preserves the search invariant. -/
theorem embInv_step (G : DGraph) (p : Pat) (hdir : p.directed = G.directed)
    (a : Emb) (u g : Nat) (hinv : EmbInv G p a) (hua : embGet a u = none)
    (h1 : g ∉ embValues a) (h2 : consistentB G p a u g = true) :
    EmbInv G p (a ++ [(u, g)]) := by
  obtain ⟨hinj, hedge⟩ := hinv
  constructor
  · intro i j g2 hi hj
    rw [embGet_append] at hi hj
    cases hai : embGet a i with
    | some x =>
      rw [hai] at hi
      cases haj : embGet a j with
      | some y =>
        rw [haj] at hj
        exact hinj i j g2 (hai.trans hi) (haj.trans hj)
      | none =>
        rw [haj] at hj
        by_cases hju : j = u
        · simp only [if_pos hju] at hj
          have hx : x = g2 := by simpa using hi
          have hg2 : g2 = g := by simpa using hj.symm
          exact absurd (embGet_mem_values a i g (by rw [hai, hx, hg2])) h1
        · simp [hju] at hj
    | none =>
      rw [hai] at hi
      by_cases hiu : i = u
      · cases haj : embGet a j with
        | some y =>
          rw [haj] at hj
          have hy : y = g2 := by simpa using hj
          have hg2 : g2 = g := by
            simp only [if_pos hiu] at hi
            simpa using hi.symm
          exact absurd (embGet_mem_values a j g (by rw [haj, hy, hg2])) h1
        | none =>
          rw [haj] at hj
          by_cases hju : j = u
          · rw [hiu, hju]
          · simp [hju] at hj
      · simp [hiu] at hi
  · intro e he hne gu gv hgu hgv
    rw [embGet_append] at hgu hgv
    cases hau : embGet a e.u with
    | some x =>
      rw [hau] at hgu
      have hx : x = gu := by simpa using hgu
      cases hav : embGet a e.v with
      | some y =>
        rw [hav] at hgv
        have hy : y = gv := by simpa using hgv
        exact hedge e he hne gu gv (by rw [hau, hx]) (by rw [hav, hy])
      | none =>
        rw [hav] at hgv
        by_cases hvu : e.v = u
        · simp only [if_pos hvu] at hgv
          have hgvg : gv = g := by simpa using hgv.symm
          have hmem : ((e.u, e.label, if p.directed then 2 else 1) :
              Nat × Option String × Nat) ∈ nbrsOf p u :=
            (nbrsOf_mem_iff p u _).mpr ⟨e, he, Or.inr ⟨hvu, rfl⟩⟩
          have h4 : embGet a e.u = some gu := by rw [hau, hx]
          have hck := consistentB_all G p a u g h2 _ hmem gu h4
          rw [hgvg]
          cases hpd : p.directed with
          | true =>
            rw [hpd] at hck
            simpa using hck
          | false =>
            rw [hpd] at hck
            have hGd : G.directed = false := by rw [← hdir, hpd]
            have hck2 : hasEdge G g gu e.label = true := by simpa using hck
            exact hasEdge_symm G hGd g gu e.label hck2
        · simp [hvu] at hgv
    | none =>
      rw [hau] at hgu
      by_cases huu : e.u = u
      · simp only [if_pos huu] at hgu
        have hgug : gu = g := by simpa using hgu.symm
        cases hav : embGet a e.v with
        | some y =>
          rw [hav] at hgv
          have hy : y = gv := by simpa using hgv
          have hmem : ((e.v, e.label, 1) : Nat × Option String × Nat) ∈
              nbrsOf p u :=
            (nbrsOf_mem_iff p u _).mpr ⟨e, he, Or.inl ⟨huu, rfl⟩⟩
          have h4 : embGet a e.v = some gv := by rw [hav, hy]
          have hck := consistentB_all G p a u g h2 _ hmem gv h4
          rw [hgug]
          simpa using hck
        | none =>
          rw [hav] at hgv
          by_cases hvu : e.v = u
          · exact absurd (huu.trans hvu.symm) hne
          · simp [hvu] at hgv
      · simp [huu] at hgu

/-- Soundness of the backtracking search: every returned assignment
extends the initial one, satisfies the invariant, and assigns every
pattern node of the order a node of its domain. -/
theorem searchEmb_sound (G : DGraph) (p : Pat) (hdir : p.directed = G.directed) :
    ∀ (order : List Nat), order.Nodup →
      ∀ (a : Emb), (∀ u ∈ order, embGet a u = none) → EmbInv G p a →
        ∀ b ∈ searchEmb G p order a,
          EmbInv G p b ∧
          (∀ i g, embGet a i = some g → embGet b i = some g) ∧
          (∀ u ∈ order, ∃ g, embGet b u = some g ∧ g ∈ domainsOf G p u) := by
  intro order
  induction order with
  | nil =>
    intro _ a _ hinv b hb
    simp only [searchEmb, List.mem_singleton] at hb
    subst hb
    exact ⟨hinv, fun i g h => h, by simp⟩
  | cons u rest ih =>
    intro hnd a hnone hinv b hb
    simp only [searchEmb, List.mem_flatMap] at hb
    obtain ⟨g, hg, hbr⟩ := hb
    by_cases h1 : g ∈ embValues a
    · simp [h1] at hbr
    by_cases h2 : consistentB G p a u g = true
    swap
    · simp [h1, h2] at hbr
    simp only [if_neg h1, if_pos h2] at hbr
    have hua : embGet a u = none := hnone u (List.mem_cons_self u rest)
    have hstep : EmbInv G p (a ++ [(u, g)]) :=
      embInv_step G p hdir a u g hinv hua h1 h2
    have hnone2 : ∀ u2 ∈ rest, embGet (a ++ [(u, g)]) u2 = none := by
      intro u2 hu2
      have hne : u2 ≠ u := by
        intro hcon
        subst hcon
        exact (List.nodup_cons.mp hnd).1 hu2
      rw [embGet_append_of_none a u g u2 (hnone u2 (List.mem_cons_of_mem u hu2))]
      simp [hne]
    obtain ⟨hinvb, hpres, hass⟩ :=
      ih (List.nodup_cons.mp hnd).2 _ hnone2 hstep b hbr
    refine ⟨hinvb, ?_, ?_⟩
    · intro i g2 hi
      exact hpres i g2 (embGet_append_of_some a u g i g2 hi)
    · intro u2 hu2
      rcases List.mem_cons.mp hu2 with h | h
      · subst h
        refine ⟨g, ?_, hg⟩
        refine hpres u2 g ?_
        rw [embGet_append_of_none a u2 g u2 hua]
        simp
      · exact hass u2 h

/-! ### Completeness of the backtracking search -/

theorem embGet_mapDone (f : Nat → Nat) :
    ∀ (done : List Nat) (i : Nat),
      embGet (done.map fun d => (d, f d)) i =
        if i ∈ done then some (f i) else none := by
  intro done
  induction done with
  | nil => intro i; simp [embGet]
  | cons d t ih =>
    intro i
    by_cases h : d = i
    · subst h; simp [embGet]
    · have hne : i ≠ d := fun hh => h hh.symm
      have hiff : (i ∈ d :: t) ↔ i ∈ t := by
        rw [List.mem_cons]
        constructor
        · rintro (hh | hh)
          · exact absurd hh hne
          · exact hh
        · exact Or.inr
      simp only [List.map_cons, embGet, if_neg h]
      rw [ih, if_congr hiff rfl rfl]

theorem embValues_mapDone (f : Nat → Nat) (done : List Nat) :
    embValues (done.map fun d => (d, f d)) = done.map f := by
  simp [embValues, List.map_map, Function.comp]

/-- Completeness: starting from the partial assignment that agrees with
a valid embedding `f` on `done`, the search reaches the full assignment
that agrees with `f` on `done ++ order`. -/
theorem searchEmb_complete (G : DGraph) (p : Pat)
    (hdir : p.directed = G.directed) (f : Nat → Nat) (hv : ValidEmb G p f) :
    ∀ (order : List Nat), order.Nodup → (∀ u ∈ order, u < p.n) →
      ∀ (done : List Nat), (∀ u ∈ order, u ∉ done) → (∀ d ∈ done, d < p.n) →
        ((done ++ order).map fun d => (d, f d)) ∈
          searchEmb G p order (done.map fun d => (d, f d)) := by
  intro order
  induction order with
  | nil =>
    intro _ _ done _ _
    simp [searchEmb]
  | cons u rest ih =>
    intro hnd horder done hnotdone hdone
    have hu : u < p.n := horder u (List.mem_cons_self u rest)
    have hgdom : f u ∈ domainsOf G p u :=
      (mem_domainsOf G p u (f u)).mpr ⟨(hv.1 u hu).1, (hv.1 u hu).2⟩
    have hgval : f u ∉ embValues (done.map fun d => (d, f d)) := by
      rw [embValues_mapDone]
      intro hmem
      obtain ⟨d, hd, hfd⟩ := List.mem_map.mp hmem
      have hdu : d = u := hv.2.1 d (hdone d hd) u hu hfd
      exact hnotdone u (List.mem_cons_self u rest) (hdu ▸ hd)
    have hcons : consistentB G p (done.map fun d => (d, f d)) u (f u) = true := by
      apply consistentB_of
      · exact (hv.1 u hu).2.symm
      · intro ved hmem vg hvg
        rw [embGet_mapDone] at hvg
        by_cases hvd : ved.1 ∈ done
        swap
        · rw [if_neg hvd] at hvg; cases hvg
        rw [if_pos hvd] at hvg
        have hvgf : vg = f ved.1 := by simpa using hvg.symm
        obtain ⟨e, he, hcase⟩ := (nbrsOf_mem_iff p u ved).mp hmem
        rcases hcase with ⟨heu, hved⟩ | ⟨hev, hved⟩
        · -- ved = (e.v, e.label, 1); check hasEdge (f u) (f e.v)
          have hne : e.u ≠ e.v := by
            intro hcon
            apply hnotdone u (List.mem_cons_self u rest)
            rw [← heu, hcon]
            have : ved.1 = e.v := by rw [hved]
            rw [← this]; exact hvd
          have h3 := hv.2.2 e he hne
          rw [hved]
          simp only [if_pos rfl]
          rw [hvgf, hved]
          simpa [heu] using h3
        · -- ved = (e.u, e.label, if directed then 2 else 1)
          have hne : e.u ≠ e.v := by
            intro hcon
            apply hnotdone u (List.mem_cons_self u rest)
            rw [← hev, ← hcon]
            have : ved.1 = e.u := by rw [hved]
            rw [← this]; exact hvd
          have h3 := hv.2.2 e he hne
          rw [hvgf, hved]
          cases hpd : p.directed with
          | true =>
            simpa [hev] using h3
          | false =>
            have hGd : G.directed = false := by rw [← hdir, hpd]
            have h4 : hasEdge G (f e.v) (f e.u) e.label = true :=
              hasEdge_symm G hGd (f e.u) (f e.v) e.label h3
            simpa [hev] using h4
    have hrec := ih (List.nodup_cons.mp hnd).2
      (fun u2 hu2 => horder u2 (List.mem_cons_of_mem u hu2)) (done ++ [u])
      (by
        intro u2 hu2
        rw [List.mem_append, List.mem_singleton]
        rintro (h | h)
        · exact hnotdone u2 (List.mem_cons_of_mem u hu2) h
        · subst h
          exact (List.nodup_cons.mp hnd).1 hu2)
      (by
        intro d hd
        rcases List.mem_append.mp hd with h | h
        · exact hdone d h
        · rw [List.mem_singleton] at h; subst h; exact hu)
    rw [List.map_append] at hrec
    show _ ∈ searchEmb G p (u :: rest) _
    simp only [searchEmb]
    refine List.mem_flatMap.mpr ⟨f u, hgdom, ?_⟩
    rw [if_neg hgval, if_pos hcons]
    have hassoc : done ++ u :: rest = (done ++ [u]) ++ rest := by simp
    rw [hassoc]
    simpa using hrec

/-- Every valid embedding is reported by `full_mni_embeddings`. -/
theorem full_mni_complete (G : DGraph) (p : Pat)
    (hdir : p.directed = G.directed) (f : Nat → Nat) (hv : ValidEmb G p f) :
    ∃ b ∈ full_mni_embeddings G p, ∀ i, i < p.n → embGet b i = some (f i) := by
  have hb := searchEmb_complete G p hdir f hv (assignOrder G p)
    (assignOrder_nodup G p) (fun u hu => (mem_assignOrder G p u).mp hu) []
    (by simp) (by simp)
  refine ⟨_, by simpa [full_mni_embeddings] using hb, ?_⟩
  intro i hi
  rw [embGet_mapDone]
  have hio : i ∈ ([] : List Nat) ++ assignOrder G p := by
    simpa using (mem_assignOrder G p i).mpr hi
  simp only [List.nil_append] at hio ⊢
  rw [if_pos hio]

/-! ### Shape of generated extensions -/

theorem dedupByKey_subset (l : List Pat) : ∀ q ∈ dedupByKey l, q ∈ l := by
  have main : ∀ (l2 : List Pat) (acc : List Pat × List (Bool × List CodeT)),
      ∀ q ∈ (l2.foldl
        (fun acc q =>
          if patKey q ∈ acc.2 then acc
          else (acc.1 ++ [q], acc.2 ++ [patKey q])) acc).1,
        q ∈ acc.1 ∨ q ∈ l2 := by
    intro l2
    induction l2 with
    | nil => intro acc q hq; exact Or.inl hq
    | cons x t ih =>
      intro acc q hq
      rw [List.foldl_cons] at hq
      rcases ih _ q hq with h | h
      · by_cases hk : patKey x ∈ acc.2
        · simp only [if_pos hk] at h; exact Or.inl h
        · simp only [if_neg hk] at h
          rcases List.mem_append.mp h with h2 | h2
          · exact Or.inl h2
          · rw [List.mem_singleton] at h2
            exact Or.inr (by rw [h2]; exact List.mem_cons_self x t)
      · exact Or.inr (List.mem_cons_of_mem x h)
  intro q hq
  rcases main l ([], []) q hq with h | h
  · cases h
  · exact h

theorem backPropsW_back (G : DGraph) (p : Pat) (allowed : Option (List EType))
    (rm w ug wg : Nat) :
    ∀ x ∈ backPropsW G p allowed rm w ug wg,
      ∃ a2 b2 el2, x = ExtP.back a2 b2 el2 := by
  intro x hx
  unfold backPropsW at hx
  split at hx
  · split at hx
    · obtain ⟨elb, _, hf⟩ := List.mem_filterMap.mp hx
      split at hf
      · cases hf
      · split at hf
        · exact ⟨rm, w, elb, (Option.some.inj hf).symm⟩
        · cases hf
    · cases hx
  · rcases List.mem_append.mp hx with h | h
    · split at h
      · obtain ⟨elb, _, hf⟩ := List.mem_filterMap.mp h
        split at hf
        · cases hf
        · split at hf
          · exact ⟨rm, w, elb, (Option.some.inj hf).symm⟩
          · cases hf
      · cases h
    · split at h
      · obtain ⟨elb, _, hf⟩ := List.mem_filterMap.mp h
        split at hf
        · cases hf
        · split at hf
          · exact ⟨w, rm, elb, (Option.some.inj hf).symm⟩
          · cases hf
      · cases h

theorem fwdOutProps_fwdOut (G : DGraph) (p : Pat) (useHeur : Bool)
    (allowed : Option (List EType)) (emb : Emb) (up ug : Nat) :
    ∀ x ∈ fwdOutProps G p useHeur allowed emb up ug,
      ∃ u2 lv2 el2, x = ExtP.fwdOut u2 lv2 el2 := by
  intro x hx
  unfold fwdOutProps at hx
  obtain ⟨pr, _, hf⟩ := List.mem_filterMap.mp hx
  split at hf
  · cases hf
  · split at hf
    · cases hf
    · split at hf
      · split at hf
        · exact ⟨up, _, pr.2, (Option.some.inj hf).symm⟩
        · cases hf
      · split at hf
        · exact ⟨up, _, pr.2, (Option.some.inj hf).symm⟩
        · cases hf

theorem fwdInProps_directed (G : DGraph) (p : Pat) (useHeur : Bool)
    (allowed : Option (List EType)) (emb : Emb) (up ug : Nat) :
    ∀ x ∈ fwdInProps G p useHeur allowed emb up ug,
      G.directed = true ∧ ∃ u2 lv2 el2, x = ExtP.fwdIn u2 lv2 el2 := by
  intro x hx
  unfold fwdInProps at hx
  split at hx
  case isTrue hdt =>
    obtain ⟨pr, _, hf⟩ := List.mem_filterMap.mp hx
    refine ⟨hdt, ?_⟩
    split at hf
    · cases hf
    · split at hf
      · cases hf
      · split at hf
        · exact ⟨up, _, pr.2, (Option.some.inj hf).symm⟩
        · cases hf
  case isFalse => cases hx

/-- An incoming-edge proposal can only arise on a directed graph. -/
theorem propsOfEmb_fwdIn_directed (G : DGraph) (p : Pat) (useHeur : Bool)
    (allowed : Option (List EType)) (rm : Nat) (anc : List Nat) (emb : Emb)
    (u2 : Nat) (lv2 : String) (el2 : Option String)
    (hprop : ExtP.fwdIn u2 lv2 el2 ∈ propsOfEmb G p useHeur allowed rm anc emb) :
    G.directed = true := by
  simp only [propsOfEmb] at hprop
  rcases List.mem_append.mp hprop with h | h
  · exfalso
    cases hrm : embGet emb rm with
    | none => simp only [hrm] at h; simp at h
    | some ug =>
      simp only [hrm] at h
      obtain ⟨w, _, h2⟩ := List.mem_flatMap.mp h
      cases hw : embGet emb w with
      | none => simp only [hw] at h2; simp at h2
      | some wg =>
        simp only [hw] at h2
        obtain ⟨a2, b2, el3, hcon⟩ := backPropsW_back G p allowed rm w ug wg _ h2
        cases hcon
  · obtain ⟨up, _, h2⟩ := List.mem_flatMap.mp h
    cases hup : embGet emb up with
    | none => simp only [hup] at h2; simp at h2
    | some ug =>
      simp only [hup] at h2
      rcases List.mem_append.mp h2 with h3 | h3
      · obtain ⟨u3, lv3, el3, hcon⟩ :=
          fwdOutProps_fwdOut G p useHeur allowed emb up ug _ h3
        cases hcon
      · exact (fwdInProps_directed G p useHeur allowed emb up ug _ h3).1

/-- Every yielded extension appends exactly one edge to `p`, keeps `p`'s
vertex labels as a prefix (adding at most one new label), and carries
`p`'s directed flag. -/
theorem extensions_shape (G : DGraph) (p : Pat) (embs : List Emb)
    (useHeur : Bool) (allowed : Option (List EType))
    (hdir : p.directed = G.directed) :
    ∀ q ∈ extensions G p embs useHeur allowed,
      q.directed = p.directed ∧ (∃ e, q.edges = p.edges ++ [e]) ∧
      (q.vlabels = p.vlabels ∨ ∃ lv, q.vlabels = p.vlabels ++ [lv]) := by
  intro q hq
  unfold extensions at hq
  have hq2 := dedupByKey_subset _ q hq
  obtain ⟨pr, hpr, hmk⟩ := List.mem_map.mp hq2
  obtain ⟨emb, _, hprop⟩ := List.mem_flatMap.mp hpr
  subst hmk
  cases pr with
  | back a2 b2 el2 => exact ⟨rfl, ⟨⟨a2, b2, el2⟩, rfl⟩, Or.inl rfl⟩
  | fwdOut u2 lv2 el2 =>
    exact ⟨rfl, ⟨⟨u2, p.n, el2⟩, rfl⟩, Or.inr ⟨lv2, rfl⟩⟩
  | fwdIn u2 lv2 el2 =>
    have hGd : G.directed = true :=
      propsOfEmb_fwdIn_directed G p useHeur allowed _ _ emb u2 lv2 el2 hprop
    refine ⟨?_, ⟨⟨p.n, u2, el2⟩, rfl⟩, Or.inr ⟨lv2, rfl⟩⟩
    show true = p.directed
    rw [hdir, hGd]

/-! ### Claim C5 -/

theorem natMin_map_mono :
    ∀ (l : List Nat) (f g : Nat → Nat), (∀ x ∈ l, f x ≤ g x) →
      natMin (l.map f) ≤ natMin (l.map g) := by
  intro l
  induction l with
  | nil => intro f g _; simp [natMin]
  | cons a t ih =>
    intro f g h
    cases t with
    | nil => simpa [natMin] using h a (by simp)
    | cons b t2 =>
      have h1 : f a ≤ g a := h a (by simp)
      have h2 := ih f g fun x hx => h x (List.mem_cons_of_mem a hx)
      show min (f a) (natMin ((b :: t2).map f)) ≤
        min (g a) (natMin ((b :: t2).map g))
      exact min_le_min h1 h2

theorem natMin_append_left :
    ∀ (l t : List Nat), l ≠ [] → natMin (l ++ t) ≤ natMin l := by
  intro l
  induction l with
  | nil => intro t h; cases h rfl
  | cons a l2 ih =>
    intro t _
    cases l2 with
    | nil => simpa [natMin] using natMin_le_of_mem (a :: t) a (by simp)
    | cons b l3 =>
      show min a (natMin ((b :: l3) ++ t)) ≤ min a (natMin (b :: l3))
      exact min_le_min (le_refl a) (ih t (by simp))

theorem imgCard_mono (A B : List Emb) (i : Nat)
    (h : ∀ x, x ∈ imgList A i → x ∈ imgList B i) :
    imgCard A i ≤ imgCard B i := by
  unfold imgCard
  rw [← List.card_toFinset, ← List.card_toFinset]
  apply Finset.card_le_card
  intro x hx
  rw [List.mem_toFinset] at hx ⊢
  exact h x hx

theorem getD_prefix (l t : List String) (i : Nat) (h : i < l.length) :
    (l ++ t).getD i "" = l.getD i "" := by
  unfold List.getD
  rw [List.get?_append h]

/-- C5: MNI support is anti-monotone along the candidate generator: for
every one-edge extension `q` yielded by `extensions(p, ...)`, the MNI
support of `q` (over its full embedding list) is at most that of `p`. -/
theorem c5_mni_antimonotone (G : DGraph) (p : Pat)
    (hdir : p.directed = G.directed)
    (hwf : ∀ e ∈ p.edges, e.u < p.n ∧ e.v < p.n) (hn : 1 ≤ p.n)
    (embs : List Emb) (useHeur : Bool) (allowed : Option (List EType))
    (q : Pat) (hq : q ∈ extensions G p embs useHeur allowed) :
    mni_support (full_mni_embeddings G q) q.n ≤
      mni_support (full_mni_embeddings G p) p.n := by
  obtain ⟨hqdir, ⟨enew, hedges⟩, hvl⟩ :=
    extensions_shape G p embs useHeur allowed hdir q hq
  have hqdirG : q.directed = G.directed := by rw [hqdir, hdir]
  have hpnqn : p.n ≤ q.n := by
    rcases hvl with h | ⟨lv, h⟩
    · simp [Pat.n, h]
    · simp [Pat.n, h]
  have hlabpre : ∀ i, i < p.n → vlabP q i = vlabP p i := by
    intro i hi
    rcases hvl with h | ⟨lv, h⟩
    · simp [vlabP, h]
    · simp only [vlabP, h]
      exact getD_prefix p.vlabels [lv] i hi
  have hsub : ∀ i, i < p.n → ∀ x,
      x ∈ imgList (full_mni_embeddings G q) i →
        x ∈ imgList (full_mni_embeddings G p) i := by
    intro i hi x hx
    obtain ⟨b, hb, hbg⟩ := List.mem_filterMap.mp hx
    have hqsound := searchEmb_sound G q hqdirG (assignOrder G q)
      (assignOrder_nodup G q) [] (fun u _ => rfl)
      ⟨fun i2 j2 g2 h2 _ => by simp [embGet] at h2,
        fun e _ _ gu gv h2 _ => by simp [embGet] at h2⟩ b hb
    obtain ⟨⟨hinj, hedge⟩, _, hass⟩ := hqsound
    have hfdef : ∀ j, j < q.n →
        embGet b j = some ((embGet b j).getD 0) ∧
        (embGet b j).getD 0 ∈ domainsOf G q j := by
      intro j hj
      obtain ⟨g, hg, hgd⟩ := hass j ((mem_assignOrder G q j).mpr hj)
      rw [hg]
      exact ⟨rfl, hgd⟩
    have hvalid : ValidEmb G p fun j => (embGet b j).getD 0 := by
      refine ⟨?_, ?_, ?_⟩
      · intro i2 hi2
        have hj := hfdef i2 (lt_of_lt_of_le hi2 hpnqn)
        have hdom := (mem_domainsOf G q i2 _).mp hj.2
        refine ⟨hdom.1, ?_⟩
        show vlabG G ((embGet b i2).getD 0) = vlabP p i2
        rw [hdom.2, hlabpre i2 hi2]
      · intro i2 hi2 j2 hj2 heq
        have heq2 : (embGet b i2).getD 0 = (embGet b j2).getD 0 := heq
        refine hinj i2 j2 ((embGet b i2).getD 0)
          (hfdef i2 (lt_of_lt_of_le hi2 hpnqn)).1 ?_
        rw [heq2]
        exact (hfdef j2 (lt_of_lt_of_le hj2 hpnqn)).1
      · intro e he hne
        have hgu := (hfdef e.u (lt_of_lt_of_le (hwf e he).1 hpnqn)).1
        have hgv := (hfdef e.v (lt_of_lt_of_le (hwf e he).2 hpnqn)).1
        show hasEdge G ((embGet b e.u).getD 0) ((embGet b e.v).getD 0)
          e.label = true
        exact hedge e (by rw [hedges]; exact List.mem_append_left _ he) hne
          _ _ hgu hgv
    obtain ⟨c, hc, hcv⟩ := full_mni_complete G p hdir _ hvalid
    have hcv2 : embGet c i = some ((embGet b i).getD 0) := hcv i hi
    have hfx : (embGet b i).getD 0 = x := by rw [hbg]; rfl
    exact List.mem_filterMap.mpr ⟨c, hc, by rw [hcv2, hfx]⟩
  have hq0 : ¬q.n = 0 := by omega
  have hp0 : ¬p.n = 0 := by omega
  have h1 : mni_support (full_mni_embeddings G q) q.n ≤
      natMin ((List.range p.n).map (imgCard (full_mni_embeddings G q))) := by
    obtain ⟨d, hqn⟩ : ∃ d, q.n = p.n + d := ⟨q.n - p.n, by omega⟩
    rw [mni_support, if_neg hq0, hqn, List.range_add, List.map_append]
    apply natMin_append_left
    intro hcon
    have := congrArg List.length hcon
    simp at this
    omega
  have h2 : natMin ((List.range p.n).map (imgCard (full_mni_embeddings G q))) ≤
      natMin ((List.range p.n).map (imgCard (full_mni_embeddings G p))) :=
    natMin_map_mono _ _ _ fun i hix =>
      imgCard_mono _ _ i (hsub i (List.mem_range.mp hix))
  have h3 : mni_support (full_mni_embeddings G p) p.n =
      natMin ((List.range p.n).map (imgCard (full_mni_embeddings G p))) := by
    rw [mni_support, if_neg hp0]
  rw [h3]
  exact le_trans h1 h2

/-- C5 witness: the `L—C—L` extension of the `C—L` seed on the star
graph. -/
theorem c5_mni_antimonotone_witness :
    (exPcl.directed = exGstar.directed ∧
      (∀ e ∈ exPcl.edges, e.u < exPcl.n ∧ e.v < exPcl.n) ∧ 1 ≤ exPcl.n ∧
      exPlcl ∈ extensions exGstar exPcl
        (full_mni_embeddings exGstar exPcl) false none) ∧
    mni_support (full_mni_embeddings exGstar exPlcl) exPlcl.n ≤
      mni_support (full_mni_embeddings exGstar exPcl) exPcl.n :=
  ⟨⟨by decide, by decide, by decide, by decide⟩,
    c5_mni_antimonotone exGstar exPcl (by decide) (by decide) (by decide)
      (full_mni_embeddings exGstar exPcl) false none exPlcl (by decide)⟩

/-! ### Claim C6 (amended) -/

/-- C6 amended: the ordering part of the heuristics does not change the
candidate set — `neighbor_order(u)` is a permutation of `adj[u]`.  (The
pruning part does change the mined set; see
`c6_heuristics_change_result_set`.) -/
theorem c6_neighbor_order_is_permutation (G : DGraph) (u : Nat) :
    (neighborOrder G u).Perm (adjL G u) :=
  stableSort_perm _ _

/-! ### String-order facts used for label normalization -/

theorem strLtL_asymm :
    ∀ (a b : List Char), strLtL a b = true → strLtL b a = false := by
  intro a
  induction a with
  | nil =>
    intro b h
    cases b with
    | nil => simpa [strLtL] using h
    | cons d ds => rfl
  | cons c cs ih =>
    intro b h
    cases b with
    | nil => simp [strLtL] at h
    | cons d ds =>
      by_cases h1 : c < d
      · have h2 : ¬d < c := lt_asymm h1
        simp [strLtL, h1, h2]
      · by_cases h2 : d < c
        · simp [strLtL, h1, h2] at h
        · simp only [strLtL, if_neg h1, if_neg h2] at h ⊢
          exact ih ds h

theorem strLtL_eq_of_not_lt :
    ∀ (a b : List Char), strLtL a b = false → strLtL b a = false → a = b := by
  intro a
  induction a with
  | nil =>
    intro b h1 _
    cases b with
    | nil => rfl
    | cons d ds => simp [strLtL] at h1
  | cons c cs ih =>
    intro b h1 h2
    cases b with
    | nil => simp [strLtL] at h2
    | cons d ds =>
      by_cases hc : c < d
      · simp [strLtL, hc] at h1
      · by_cases hd : d < c
        · simp [strLtL, hd, lt_asymm hd] at h2
        · have hcd : c = d := le_antisymm (not_lt.mp hd) (not_lt.mp hc)
          subst hcd
          simp only [strLtL, if_neg hc, if_neg hd] at h1 h2
          rw [ih ds h1 h2]

theorem normLabs_comm (a b : String) : normLabs a b = normLabs b a := by
  unfold normLabs strLeB
  by_cases h1 : strLtB b a = true
  · have h2 : strLtB a b = false := strLtL_asymm b.data a.data h1
    simp [h1, h2]
  · by_cases h2 : strLtB a b = true
    · have h1f : strLtB b a = false := strLtL_asymm a.data b.data h2
      simp [h1f, h2]
    · have h1f : strLtB b a = false := Bool.eq_false_iff.mpr h1
      have h2f : strLtB a b = false := Bool.eq_false_iff.mpr h2
      have hab : a = b := by
        have hd : a.data = b.data := strLtL_eq_of_not_lt a.data b.data h2f h1f
        cases a with
        | mk la =>
          cases b with
          | mk lb =>
            have hd2 : la = lb := hd
            rw [hd2]
      subst hab
      rfl

/-! ### Claim C7 (amended) -/

theorem count_flatMap {α β : Type} [BEq β] (l : List α)
    (f : α → List β) (t : β) :
    ((l.flatMap f).count t) = (l.map fun x => (f x).count t).sum := by
  induction l with
  | nil => simp
  | cons x xs ih => simp [List.flatMap_cons, List.count_append, ih]

theorem filterMap_flatMap_eq {α β γ : Type} (l : List α) (f : α → List β)
    (g : β → Option γ) :
    (l.flatMap f).filterMap g = l.flatMap fun x => (f x).filterMap g := by
  induction l with
  | nil => rfl
  | cons x xs ih => simp [List.flatMap_cons, List.filterMap_append, ih]

theorem sum_map_zero {β : Type} (l : List β) :
    (l.map fun _ => (0 : Nat)).sum = 0 := by
  induction l with
  | nil => rfl
  | cons b bs ih => simp [ih]

theorem sum_map_add {β : Type} (l : List β) (g h : β → Nat) :
    (l.map fun b => g b + h b).sum = (l.map g).sum + (l.map h).sum := by
  induction l with
  | nil => rfl
  | cons b bs ih =>
    simp only [List.map_cons, List.sum_cons, ih]
    omega

theorem sum_map_swap {α β : Type} (l1 : List α) (l2 : List β)
    (f : α → β → Nat) :
    (l1.map fun a => (l2.map (f a)).sum).sum =
      (l2.map fun b => (l1.map fun a => f a b).sum).sum := by
  induction l1 with
  | nil => simp [sum_map_zero]
  | cons a as ih =>
    simp only [List.map_cons, List.sum_cons, ih]
    rw [← sum_map_add]

theorem sum_range_single (n a x : Nat) (h : a < n) :
    ((List.range n).map fun u => if u = a then x else 0).sum = x := by
  induction n with
  | zero => omega
  | succ m ih =>
    rw [List.range_succ, List.map_append, List.sum_append]
    by_cases ha : a < m
    · rw [ih ha]
      have hma : m ≠ a := by omega
      simp [hma]
    · have ham : a = m := by omega
      subst ham
      have hz : ((List.range a).map fun u => if u = a then x else 0).sum = 0 := by
        have hmap : (List.range a).map (fun u => if u = a then x else 0) =
            (List.range a).map fun _ => 0 := by
          apply List.map_congr_left
          intro u hu
          have : u ≠ a := by have := List.mem_range.mp hu; omega
          simp [this]
        rw [hmap, sum_map_zero]
      rw [hz]
      simp

/-- C7 amended: for an undirected graph, `edge_type_counts` assigns each
type the number of stored non-loop edges of that type plus twice the
number of self-loops of that type (the `u > v` skip keeps `u <= v`, so
both adjacency copies of a self-loop are counted). -/
theorem c7_edge_type_counts_formula (G : DGraph) (hd : G.directed = false)
    (hwf : ∀ e ∈ G.edges, e.u < G.n ∧ e.v < G.n) (t : EType) :
    edge_type_count G t =
      (G.edges.map fun e =>
        if undirectedTypeOf G e = t then (if e.u = e.v then 2 else 1)
        else 0).sum := by
  have hstep1 : edge_type_count G t =
      ((List.range G.n).map fun u =>
        (G.edges.map fun e =>
          ((adjEntriesOf G e u).filterMap (etcEntry G u)).count t).sum).sum := by
    unfold edge_type_count etcStream
    rw [count_flatMap]
    apply congrArg
    apply List.map_congr_left
    intro u _
    rw [show adjL G u = G.edges.flatMap fun e => adjEntriesOf G e u from rfl]
    rw [filterMap_flatMap_eq, count_flatMap]
  rw [hstep1, sum_map_swap]
  apply congrArg
  apply List.map_congr_left
  intro e he
  have heu : e.u < G.n := (hwf e he).1
  have hev : e.v < G.n := (hwf e he).2
  have hentry1 : etcEntry G e.u (e.v, e.label) =
      if e.u > e.v then none else some (undirectedTypeOf G e) := by
    simp only [etcEntry, hd, Bool.false_eq_true, if_false, undirectedTypeOf]
  have hentry2 : etcEntry G e.v (e.u, e.label) =
      if e.v > e.u then none else some (undirectedTypeOf G e) := by
    simp only [etcEntry, hd, Bool.false_eq_true, if_false, undirectedTypeOf]
    rw [normLabs_comm (vlabG G e.v) (vlabG G e.u)]
  have hrow : ∀ u,
      ((adjEntriesOf G e u).filterMap (etcEntry G u)).count t =
      (if u = e.u then
        (if e.u > e.v then 0 else if undirectedTypeOf G e = t then 1 else 0)
       else 0) +
      (if u = e.v then
        (if e.v > e.u then 0 else if undirectedTypeOf G e = t then 1 else 0)
       else 0) := by
    intro u
    unfold adjEntriesOf
    rw [List.filterMap_append, List.count_append]
    congr 1
    · by_cases h1 : e.u = u
      · subst h1
        simp only [if_pos rfl]
        by_cases h2 : e.u > e.v
        · simp [hentry1, h2]
        · by_cases h3 : undirectedTypeOf G e = t
          · simp [hentry1, h2, h3]
          · have hz : ¬t = undirectedTypeOf G e := fun hh => h3 hh.symm
            simp only [if_true, if_neg h2, if_neg h3]
            rw [List.count_eq_zero]
            simp [hentry1, h2, hz]
      · have h1r : ¬u = e.u := fun hh => h1 hh.symm
        simp [h1, h1r]
    · by_cases h1 : e.v = u
      · subst h1
        simp only [hd, if_pos (And.intro rfl rfl)]
        by_cases h2 : e.v > e.u
        · simp [hentry2, h2]
        · by_cases h3 : undirectedTypeOf G e = t
          · simp [hentry2, h2, h3]
          · have hz : ¬t = undirectedTypeOf G e := fun hh => h3 hh.symm
            simp only [if_true, if_neg h2, if_neg h3]
            rw [List.count_eq_zero]
            simp [hentry2, h2, hz]
      · have h1r : ¬u = e.v := fun hh => h1 hh.symm
        simp [h1, h1r, hd]
  have hsum : ((List.range G.n).map fun u =>
      (if u = e.u then
        (if e.u > e.v then 0 else if undirectedTypeOf G e = t then 1 else 0)
       else 0) +
      (if u = e.v then
        (if e.v > e.u then 0 else if undirectedTypeOf G e = t then 1 else 0)
       else 0)).sum =
      (if e.u > e.v then 0 else if undirectedTypeOf G e = t then 1 else 0) +
      (if e.v > e.u then 0 else if undirectedTypeOf G e = t then 1 else 0) := by
    rw [sum_map_add, sum_range_single G.n e.u _ heu,
      sum_range_single G.n e.v _ hev]
  rw [List.map_congr_left fun u _ => hrow u, hsum]
  rcases Nat.lt_trichotomy e.u e.v with hlt | heq | hgt
  · have h1 : ¬e.u > e.v := by omega
    have h2 : e.v > e.u := hlt
    have h3 : ¬e.u = e.v := by omega
    by_cases h4 : undirectedTypeOf G e = t
    · simp [h1, h2, h3, h4]
    · simp [h1, h2, h3, h4]
  · have h1 : ¬e.u > e.v := by omega
    have h2 : ¬e.v > e.u := by omega
    by_cases h4 : undirectedTypeOf G e = t
    · simp [h1, h2, heq, h4]
    · simp [h1, h2, heq, h4]
  · have h1 : e.u > e.v := hgt
    have h2 : ¬e.v > e.u := by omega
    have h3 : ¬e.u = e.v := by omega
    by_cases h4 : undirectedTypeOf G e = t
    · simp [h1, h2, h3, h4]
    · simp [h1, h2, h3, h4]

/-- C7 witness: the single-node graph `A` with one self-loop, evaluated
through the formula: the loop's type is counted twice. -/
theorem c7_edge_type_counts_witness :
    (exGloop.directed = false ∧
      (∀ e ∈ exGloop.edges, e.u < exGloop.n ∧ e.v < exGloop.n)) ∧
    edge_type_count exGloop ("A", "A", none, 0) =
      (exGloop.edges.map fun e =>
        if undirectedTypeOf exGloop e = ("A", "A", none, 0) then
          (if e.u = e.v then 2 else 1)
        else 0).sum :=
  ⟨⟨by decide, by decide⟩,
    c7_edge_type_counts_formula exGloop (by decide) (by decide)
      ("A", "A", none, 0)⟩

/-! ### Claim C3 (amended) -/

/-- C3 amended: every mapping returned by `full_mni_embeddings` is
injective and, for every pattern edge with distinct endpoints, maps the
endpoints to graph nodes joined by a matching `has_edge` (direction
respected for directed patterns).  Self-loop pattern edges are excluded:
the search never checks them (see `c3_self_loop_edge_not_checked`). -/
theorem c3_embeddings_injective_and_edge_preserving (G : DGraph) (p : Pat)
    (hdir : p.directed = G.directed)
    (hwf : ∀ e ∈ p.edges, e.u < p.n ∧ e.v < p.n) :
    ∀ b ∈ full_mni_embeddings G p,
      (∀ i j g, embGet b i = some g → embGet b j = some g → i = j) ∧
      (∀ e ∈ p.edges, e.u ≠ e.v → ∃ gu gv, embGet b e.u = some gu ∧
        embGet b e.v = some gv ∧ hasEdge G gu gv e.label = true) := by
  intro b hb
  have hsound := searchEmb_sound G p hdir (assignOrder G p)
    (assignOrder_nodup G p) [] (by intro u _; rfl) ⟨by simp [embGet],
      by intro e _ _ gu gv h _; simp [embGet] at h⟩ b hb
  obtain ⟨⟨hinj, hedge⟩, _, hass⟩ := hsound
  refine ⟨hinj, ?_⟩
  intro e he hne
  obtain ⟨gu, hgu, _⟩ := hass e.u ((mem_assignOrder G p e.u).mpr (hwf e he).1)
  obtain ⟨gv, hgv, _⟩ := hass e.v ((mem_assignOrder G p e.v).mpr (hwf e he).2)
  exact ⟨gu, gv, hgu, hgv, hedge e he hne gu gv hgu hgv⟩

/-- C3 witness: apply the amended theorem to the `X—Y` graph and its
single-edge pattern and check the conclusion at the one embedding. -/
theorem c3_embeddings_witness :
    exPXYpat.directed = exGxy.directed ∧
      (∀ e ∈ exPXYpat.edges, e.u < exPXYpat.n ∧ e.v < exPXYpat.n) ∧
      (∀ b ∈ full_mni_embeddings exGxy exPXYpat,
        (∀ i j g, embGet b i = some g → embGet b j = some g → i = j) ∧
        (∀ e ∈ exPXYpat.edges, e.u ≠ e.v → ∃ gu gv,
          embGet b e.u = some gu ∧ embGet b e.v = some gv ∧
          hasEdge exGxy gu gv e.label = true)) :=
  ⟨by decide, by decide,
    c3_embeddings_injective_and_edge_preserving exGxy exPXYpat
      (by decide) (by decide)⟩

/-! ### Claim C8 (amended): characterization of the seed tuples -/

theorem dedupFold_aux {α : Type} [DecidableEq α] (l : List α) :
    ∀ acc : List α, acc.Nodup →
      (l.foldl dedupStep acc).Nodup ∧
      ∀ x, x ∈ l.foldl dedupStep acc ↔ x ∈ acc ∨ x ∈ l := by
  induction l with
  | nil =>
    intro acc hacc
    refine ⟨hacc, fun x => ?_⟩
    simp
  | cons t l ih =>
    intro acc hacc
    rw [List.foldl_cons]
    by_cases ht : t ∈ acc
    · rw [show dedupStep acc t = acc from by simp [dedupStep, ht]]
      obtain ⟨h1, h2⟩ := ih acc hacc
      refine ⟨h1, fun x => ?_⟩
      rw [h2 x]
      constructor
      · rintro (hx | hx)
        · exact Or.inl hx
        · exact Or.inr (List.mem_cons_of_mem t hx)
      · rintro (hx | hx)
        · exact Or.inl hx
        · rcases List.mem_cons.mp hx with hx | hx
          · exact Or.inl (by rw [hx]; exact ht)
          · exact Or.inr hx
    · rw [show dedupStep acc t = acc ++ [t] from by simp [dedupStep, ht]]
      have hacc2 : (acc ++ [t]).Nodup := by
        rw [List.nodup_append]
        refine ⟨hacc, List.nodup_singleton t, ?_⟩
        intro a ha hb
        rw [List.mem_singleton] at hb
        rw [hb] at ha
        exact ht ha
      obtain ⟨h1, h2⟩ := ih (acc ++ [t]) hacc2
      refine ⟨h1, fun x => ?_⟩
      rw [h2 x]
      simp only [List.mem_append, List.mem_singleton, List.mem_cons]
      tauto

theorem dedupFirst_nodup {α : Type} [DecidableEq α] (l : List α) :
    (dedupFirst l).Nodup :=
  (dedupFold_aux l [] List.nodup_nil).1

theorem mem_dedupFirst {α : Type} [DecidableEq α] (l : List α) (x : α) :
    x ∈ dedupFirst l ↔ x ∈ l := by
  unfold dedupFirst
  rw [(dedupFold_aux l [] List.nodup_nil).2 x]
  simp

theorem seedStep_hit (G : DGraph) (ps : List Pat)
    (ts : List (String × String × Option String × Bool))
    (x : (String × String × Option String × Bool) × String × String)
    (hx : x.1 ∈ ts) : seedStep G (ps, ts) x = (ps, ts) := by
  simp [seedStep, hx]

theorem seedStep_new (G : DGraph) (ps : List Pat)
    (ts : List (String × String × Option String × Bool))
    (x : (String × String × Option String × Bool) × String × String)
    (hx : ¬x.1 ∈ ts) :
    seedStep G (ps, ts) x =
      (ps ++ [(⟨G.directed, [x.2.1, x.2.2], [⟨0, 1, x.1.2.2.1⟩]⟩ : Pat)],
        ts ++ [x.1]) := by
  simp [seedStep, hx]

theorem seedFold_snd (G : DGraph)
    (l : List ((String × String × Option String × Bool) × String × String)) :
    ∀ (ps : List Pat) (ts : List (String × String × Option String × Bool)),
      (l.foldl (seedStep G) (ps, ts)).2 = (l.map (·.1)).foldl dedupStep ts := by
  induction l with
  | nil => intro ps ts; rfl
  | cons x l ih =>
    intro ps ts
    rw [List.foldl_cons, List.map_cons, List.foldl_cons]
    by_cases hx : x.1 ∈ ts
    · rw [seedStep_hit G ps ts x hx,
        show dedupStep ts x.1 = ts from by simp [dedupStep, hx]]
      exact ih ps ts
    · rw [seedStep_new G ps ts x hx,
        show dedupStep ts x.1 = ts ++ [x.1] from by simp [dedupStep, hx]]
      exact ih _ _

theorem seedFold_len (G : DGraph)
    (l : List ((String × String × Option String × Bool) × String × String)) :
    ∀ (ps : List Pat) (ts : List (String × String × Option String × Bool)),
      ps.length = ts.length →
      (l.foldl (seedStep G) (ps, ts)).1.length =
        (l.foldl (seedStep G) (ps, ts)).2.length := by
  induction l with
  | nil => intro ps ts h; exact h
  | cons x l ih =>
    intro ps ts h
    rw [List.foldl_cons]
    by_cases hx : x.1 ∈ ts
    · rw [seedStep_hit G ps ts x hx]
      exact ih ps ts h
    · rw [seedStep_new G ps ts x hx]
      apply ih
      simp [h]

theorem seed_patterns_length (G : DGraph) :
    (seed_patterns G).length = (seedTuples G).length := by
  unfold seed_patterns seedTuples dedupFirst
  rw [seedFold_len G (seedStream G) [] [] rfl,
    seedFold_snd G (seedStream G) [] []]

theorem mem_seedStream (G : DGraph)
    (x : (String × String × Option String × Bool) × String × String) :
    x ∈ seedStream G ↔
      ∃ u, u < G.n ∧ ∃ pr ∈ adjL G u, seedEntry G u pr = some x := by
  unfold seedStream
  constructor
  · intro h
    rw [List.mem_flatMap] at h
    obtain ⟨u, hu, hx⟩ := h
    rw [List.mem_filterMap] at hx
    obtain ⟨pr, hpr, hsome⟩ := hx
    exact ⟨u, List.mem_range.mp hu, pr, hpr, hsome⟩
  · rintro ⟨u, hu, pr, hpr, hsome⟩
    rw [List.mem_flatMap]
    exact ⟨u, List.mem_range.mpr hu, List.mem_filterMap.mpr ⟨pr, hpr, hsome⟩⟩

/-- C8 amended: `seed_patterns` yields exactly one two-node one-edge
pattern per distinct seed tuple and no two yielded seeds share a tuple;
for directed graphs the tuples are exactly the `(lu, lv, elab)` triples
of the edges (self-loops included), while for undirected graphs they are
exactly the normalized triples of the edges with distinct endpoints —
undirected self-loop edge types are never seeded. -/
theorem c8_seed_tuples_characterization (G : DGraph)
    (hwf : ∀ e ∈ G.edges, e.u < G.n ∧ e.v < G.n) :
    (seed_patterns G).length = (seedTuples G).length ∧
    (seedTuples G).Nodup ∧
    ∀ t, t ∈ seedTuples G ↔
      (if G.directed then
        ∃ e ∈ G.edges, t = (vlabG G e.u, vlabG G e.v, e.label, true)
      else
        ∃ e ∈ G.edges, e.u ≠ e.v ∧
          t = ((normLabs (vlabG G e.u) (vlabG G e.v)).1,
            (normLabs (vlabG G e.u) (vlabG G e.v)).2, e.label, false)) := by
  refine ⟨seed_patterns_length G, dedupFirst_nodup _, ?_⟩
  intro t
  unfold seedTuples
  rw [mem_dedupFirst, List.mem_map]
  by_cases hdir : G.directed = true
  · rw [if_pos hdir]
    constructor
    · rintro ⟨x, hx, hx1⟩
      obtain ⟨u, hu, pr, hpr, hsome⟩ := (mem_seedStream G x).mp hx
      rw [adjL_mem_iff] at hpr
      obtain ⟨e, he, hcase⟩ := hpr
      rcases hcase with ⟨heu, hpre⟩ | ⟨hdf, _, _⟩
      · subst heu
        subst hpre
        unfold seedEntry at hsome
        rw [if_pos hdir] at hsome
        refine ⟨e, he, ?_⟩
        rw [← hx1, ← Option.some.inj hsome]
      · rw [hdf] at hdir
        simp at hdir
    · rintro ⟨e, he, ht⟩
      refine ⟨((vlabG G e.u, vlabG G e.v, e.label, true),
        vlabG G e.u, vlabG G e.v), ?_, ht.symm⟩
      apply (mem_seedStream G _).mpr
      refine ⟨e.u, (hwf e he).1, (e.v, e.label), ?_, ?_⟩
      · rw [adjL_mem_iff]
        exact ⟨e, he, Or.inl ⟨rfl, rfl⟩⟩
      · unfold seedEntry
        rw [if_pos hdir]
  · have hd : G.directed = false := Bool.eq_false_iff.mpr hdir
    rw [if_neg hdir]
    constructor
    · rintro ⟨x, hx, hx1⟩
      obtain ⟨u, hu, pr, hpr, hsome⟩ := (mem_seedStream G x).mp hx
      unfold seedEntry at hsome
      rw [if_neg hdir] at hsome
      by_cases hge : u ≥ pr.1
      · rw [if_pos hge] at hsome
        simp at hsome
      · rw [if_neg hge] at hsome
        have hAx := Option.some.inj hsome
        have hlt : u < pr.1 := Nat.lt_of_not_le hge
        rw [adjL_mem_iff] at hpr
        obtain ⟨e, he, hcase⟩ := hpr
        rcases hcase with ⟨heu, hpre⟩ | ⟨_, hev, hpre⟩
        · subst heu
          subst hpre
          have hlt2 : e.u < e.v := hlt
          refine ⟨e, he, by omega, ?_⟩
          rw [← hx1, ← hAx]
        · subst hev
          subst hpre
          have hlt2 : e.v < e.u := hlt
          refine ⟨e, he, by omega, ?_⟩
          rw [← hx1, ← hAx, normLabs_comm (vlabG G e.v) (vlabG G e.u)]
    · rintro ⟨e, he, hne, ht⟩
      rcases Nat.lt_or_ge e.u e.v with hlt | hge2
      · refine ⟨(((normLabs (vlabG G e.u) (vlabG G e.v)).1,
          (normLabs (vlabG G e.u) (vlabG G e.v)).2, e.label, false),
          vlabG G e.u, vlabG G e.v), ?_, ht.symm⟩
        apply (mem_seedStream G _).mpr
        refine ⟨e.u, (hwf e he).1, (e.v, e.label), ?_, ?_⟩
        · rw [adjL_mem_iff]
          exact ⟨e, he, Or.inl ⟨rfl, rfl⟩⟩
        · unfold seedEntry
          have hcond : ¬e.u ≥ (e.v, e.label).1 := Nat.not_le_of_lt hlt
          rw [if_neg hdir, if_neg hcond]
      · have hlt : e.v < e.u := by omega
        refine ⟨(((normLabs (vlabG G e.v) (vlabG G e.u)).1,
          (normLabs (vlabG G e.v) (vlabG G e.u)).2, e.label, false),
          vlabG G e.v, vlabG G e.u), ?_, ?_⟩
        · apply (mem_seedStream G _).mpr
          refine ⟨e.v, (hwf e he).2, (e.u, e.label), ?_, ?_⟩
          · rw [adjL_mem_iff]
            exact ⟨e, he, Or.inr ⟨hd, rfl, rfl⟩⟩
          · unfold seedEntry
            have hcond : ¬e.v ≥ (e.u, e.label).1 := Nat.not_le_of_lt hlt
            rw [if_neg hdir, if_neg hcond]
        · rw [normLabs_comm (vlabG G e.v) (vlabG G e.u)]
          exact ht.symm

/-- C8 witness: the characterization applied to the undirected `X—Y`
graph: one seed per tuple, distinct tuples, and the membership
characterization for every tuple. -/
theorem c8_seed_tuples_witness :
    (∀ e ∈ exGxy.edges, e.u < exGxy.n ∧ e.v < exGxy.n) ∧
    ((seed_patterns exGxy).length = (seedTuples exGxy).length ∧
     (seedTuples exGxy).Nodup ∧
     ∀ t, t ∈ seedTuples exGxy ↔
       (if exGxy.directed then
         ∃ e ∈ exGxy.edges,
           t = (vlabG exGxy e.u, vlabG exGxy e.v, e.label, true)
       else
         ∃ e ∈ exGxy.edges, e.u ≠ e.v ∧
           t = ((normLabs (vlabG exGxy e.u) (vlabG exGxy e.v)).1,
             (normLabs (vlabG exGxy e.u) (vlabG exGxy e.v)).2, e.label,
             false))) :=
  ⟨by decide, c8_seed_tuples_characterization exGxy (by decide)⟩

end Grami
